import Mathlib

/-!
Verification of the polite resumable crawler in `minute_extractor.py`
(repository LocalGovernmentCroller).

The Python source is shallowly embedded: pure helper functions become Lean
functions on `String` / `List` / `ℚ`; the stateful components (rate limiter,
robots registry, crawl loop) become explicit state passing.  Python `set`s are
modelled as lists with membership semantics (insertion = cons), Python `dict`s
as association lists where the most recent binding is consed to the front, so
`List.lookup` (first match) realises overwrite semantics.  Wall-clock instants
and delays (Python floats) are modelled as rationals.  The standard-library
functions `urllib.parse.urlparse` (netloc / path split), `urllib.parse.urldefrag`
and `pathlib.Path.suffix` are re-implemented below following their documented
behaviour; `urljoin` and `hashlib.sha1` are abstracted as function parameters
since no verified claim depends on their internals.
-/

namespace MinuteExtractor

/-!  Character-list implementations of the string primitives the source
uses (`in`, `lower`, `strip`, `startswith`, `endswith`, `split`).  They are
structural recursions, so all definitions below evaluate inside the kernel. -/

/-- `pre` is a prefix of `l`. -/
def listIsPref : List Char → List Char → Bool
  | [], _ => true
  | _ :: _, [] => false
  | a :: as, b :: bs => a = b && listIsPref as bs

/-- `needle` occurs as a contiguous sublist of `hay`. -/
def listContains : List Char → List Char → Bool
  | hay, needle =>
    listIsPref needle hay ||
    match hay with
    | [] => false
    | _ :: t => listContains t needle

/-- Python substring test `needle in hay` (case sensitive).  An empty needle
is contained in every string. -/
def strContains (hay needle : String) : Bool :=
  listContains hay.toList needle.toList

/-- Python `s.startswith(pre)`. -/
def strStartsWith (s pre : String) : Bool :=
  listIsPref pre.toList s.toList

/-- Python `s.endswith(suffix)`. -/
def strEndsWith (s suffix : String) : Bool :=
  listIsPref suffix.toList.reverse s.toList.reverse

/-- Python `s.lower()` (ASCII case folding, which is all the configured
extensions and hints exercise). -/
def strLower (s : String) : String :=
  String.mk (s.toList.map Char.toLower)

/-- Whitespace strip on a character list (`str.strip`). -/
def trimList (l : List Char) : List Char :=
  ((l.dropWhile Char.isWhitespace).reverse.dropWhile Char.isWhitespace).reverse

/-- Python `s.strip()`. -/
def strTrim (s : String) : String :=
  String.mk (trimList s.toList)

/-- Split a character list on a separator character (`str.split(sep)`:
`n` separators yield `n + 1` pieces, empty pieces included). -/
def splitOnChar (c : Char) : List Char → List (List Char)
  | [] => [[]]
  | a :: as =>
    let r := splitOnChar c as
    if a = c then [] :: r
    else match r with
      | [] => [[a]]
      | h :: t => (a :: h) :: t

/-- Characters allowed in a URL scheme (`urllib.parse.scheme_chars`). -/
def isSchemeChar (c : Char) : Bool :=
  c.isAlpha || c.isDigit || c = '+' || c = '-' || c = '.'

/-- Split off the first element of a list satisfying nothing; helper returning
the part of `cs` before the first `':'` and the part after, if any. -/
def splitAtColon : List Char → Option (List Char × List Char)
  | [] => none
  | c :: cs =>
    if c = ':' then some ([], cs)
    else match splitAtColon cs with
      | none => none
      | some (before, after) => some (c :: before, after)

/-- Drop a leading `scheme:` from a URL, as `urllib.parse.urlsplit` does:
the text before the first `':'` is a scheme iff it is non-empty and consists
of scheme characters only. -/
def dropScheme (cs : List Char) : List Char :=
  match splitAtColon cs with
  | none => cs
  | some (before, after) =>
    if before ≠ [] ∧ before.all isSchemeChar then after else cs

/-- `urllib.parse.urlparse(url).netloc` (with `""` for a URL without a host):
after removing the scheme, a netloc is present iff the remainder starts with
`//`; it extends to the next `/`, `?` or `#`. -/
def netlocOf (url : String) : String :=
  let cs := dropScheme url.toList
  match cs with
  | '/' :: '/' :: rest =>
    String.mk (rest.takeWhile (fun c => c ≠ '/' ∧ c ≠ '?' ∧ c ≠ '#'))
  | _ => ""

/-- `urllib.parse.urlparse(url).path`: the part after the optional scheme and
netloc, up to the first `?` or `#`. -/
def urlPath (url : String) : String :=
  let cs := dropScheme url.toList
  match cs with
  | '/' :: '/' :: rest =>
    let afterHost := rest.dropWhile (fun c => c ≠ '/' ∧ c ≠ '?' ∧ c ≠ '#')
    String.mk (afterHost.takeWhile (fun c => c ≠ '?' ∧ c ≠ '#'))
  | _ => String.mk (cs.takeWhile (fun c => c ≠ '?' ∧ c ≠ '#'))

/-- `pathlib.Path(p).name`: the last path component, after dropping empty
components and `"."` components. -/
def pathNameOf (p : String) : String :=
  String.mk ((((splitOnChar '/' p.toList).filter
    (fun c => c ≠ [] ∧ c ≠ ['.'])).getLast?).getD [])

/-- Index of the last `'.'` in a character list, if any. -/
def lastDotIndex (l : List Char) : Option Nat :=
  let r := l.reverse.indexOf '.'
  if r < l.length then some (l.length - 1 - r) else none

/-- `pathlib.Path(p).suffix`: `name[i:]` where `i` is the index of the last
dot of the final component, provided `0 < i < len(name) - 1`, else `""`. -/
def pathSuffix (p : String) : String :=
  let name := (pathNameOf p).toList
  match lastDotIndex name with
  | some i => if 0 < i ∧ i < name.length - 1 then String.mk (name.drop i) else ""
  | none => ""

/-- `normalize_url` from the source: strip surrounding whitespace, then drop
the fragment (`urldefrag`, i.e. everything from the first `#` on). -/
def normalize_url (url : String) : String :=
  String.mk ((trimList url.toList).takeWhile (fun c => c ≠ '#'))

/-- Characters replaced by `_` in `safe_name` (the class `[\\/:*?"<>|]`). -/
def isForbiddenChar (c : Char) : Bool :=
  c = '\\' || c = '/' || c = ':' || c = '*' || c = '?' || c = '"' ||
  c = '<' || c = '>' || c = '|'

/-- Replace every maximal run of forbidden characters by a single `_`
(the `re.sub` with a `+`-quantified class in `safe_name`).  A run member is
dropped when the next character still belongs to the run, and emitted as `_`
at the end of the run. -/
def collapseForbidden : List Char → List Char
  | [] => []
  | c :: cs =>
    if isForbiddenChar c then
      if (cs.head?.map isForbiddenChar).getD false then collapseForbidden cs
      else '_' :: collapseForbidden cs
    else c :: collapseForbidden cs

/-- Replace every maximal run of whitespace by a single space (`re.sub` on
whitespace in `safe_name`). -/
def collapseWhitespace : List Char → List Char
  | [] => []
  | c :: cs =>
    if c.isWhitespace then
      if (cs.head?.map Char.isWhitespace).getD false then collapseWhitespace cs
      else ' ' :: collapseWhitespace cs
    else c :: collapseWhitespace cs

/-- `safe_name` from the source: strip, replace forbidden-character runs by
`_`, collapse whitespace runs to one space, truncate to 80 characters. -/
def safe_name (s : String) : String :=
  String.mk ((collapseWhitespace (collapseForbidden (trimList s.toList))).take 80)

/-- `is_probably_binary` from the source: the lower-cased content type
indicates PDF / Word / `application/vnd*` / ZIP / octet-stream. -/
def is_probably_binary (content_type : String) : Bool :=
  let ct := strLower content_type
  strContains ct "application/pdf" || strContains ct "application/msword" ||
  strContains ct "application/vnd" || strContains ct "application/zip" ||
  strContains ct "octet-stream"

/-- `guess_ext_from_content_type` from the source. -/
def guess_ext_from_content_type (content_type : String) : Option String :=
  let ct := strLower content_type
  if strContains ct "application/pdf" then some ".pdf"
  else if strContains ct "application/zip" then some ".zip"
  else if strContains ct "msword" then some ".doc"
  else if strContains ct "officedocument.wordprocessingml" then some ".docx"
  else if strContains ct "officedocument.spreadsheetml" then some ".xlsx"
  else if strContains ct "officedocument.presentationml" then some ".pptx"
  else if strContains ct "text/plain" then some ".txt"
  else if strContains ct "text/csv" then some ".csv"
  else none

/-- `looks_like_minutes_link` from the source: lower-cased URL ends with a
configured extension, or contains a URL hint, or the stripped anchor text
contains a keyword, or the original URL contains a keyword. -/
def looks_like_minutes_link (url anchor_text : String) (keywords : List String)
    (file_exts : List String) (url_hints : List String) : Bool :=
  let u := strLower url
  let t := strTrim anchor_text
  file_exts.any (fun ext => strEndsWith u ext) ||
  url_hints.any (fun h => strContains u h) ||
  keywords.any (fun k => strContains t k) ||
  keywords.any (fun k => strContains url k)

/-!  File-extension derivation and save paths for downloaded files. -/

/-- The extension chosen at the binary direct-hit step (step 6 of the crawl,
`crawl_and_collect` line 739):
`guess_ext_from_content_type(ct) or Path(urlparse(file_final).path).suffix or ".bin"`.
`ct` is the lower-cased response content type. -/
def direct_hit_ext (ct file_final : String) : String :=
  match guess_ext_from_content_type ct with
  | some e => e
  | none =>
    let s := pathSuffix (urlPath file_final)
    if s = "" then ".bin" else s

/-- The extension chosen when downloading a minutes link (step 8 of the crawl,
`crawl_and_collect` lines 874-876):
`ext2 = Path(urlparse(file_final).path).suffix.lower()`; if empty,
`ext2 = guess_ext_from_content_type(fct) or ext or ".bin"` where `ext` is the
lower-cased suffix of the link URL. -/
def link_download_ext (fct file_final ext : String) : String :=
  let s := strLower (pathSuffix (urlPath file_final))
  if s ≠ "" then s
  else match guess_ext_from_content_type fct with
    | some e => e
    | none => if ext ≠ "" then ext else ".bin"

/-- The extension rule as the specification words it for both download sites:
first from the response content type, else from the final URL path suffix,
else `".bin"`.  (This is the spec-side formulation used to compare the two
code paths against the claim.) -/
def spec_claimed_ext (ct file_final : String) : String :=
  match guess_ext_from_content_type ct with
  | some e => e
  | none =>
    if pathSuffix (urlPath file_final) = "" then ".bin"
    else pathSuffix (urlPath file_final)

/-- Save path for a downloaded file at the binary direct-hit step
(`out_dir / safe_name(pref) / safe_name(city) / "files" / sha1(final)+ext`).
`sha1h` abstracts `sha1_hex`. -/
def direct_download_path (sha1h : String → String)
    (out_dir prefecture city ct file_final : String) : String :=
  out_dir ++ "/" ++ safe_name prefecture ++ "/" ++ safe_name city ++
    "/files/" ++ sha1h file_final ++ direct_hit_ext ct file_final

/-- Save path for a downloaded minutes link (step 8). -/
def link_download_path (sha1h : String → String)
    (out_dir prefecture city fct file_final ext : String) : String :=
  out_dir ++ "/" ++ safe_name prefecture ++ "/" ++ safe_name city ++
    "/files/" ++ sha1h file_final ++ link_download_ext fct file_final ext

/-- Save path the claim prescribes for every file download. -/
def spec_claimed_path (sha1h : String → String)
    (out_dir prefecture city ct file_final : String) : String :=
  out_dir ++ "/" ++ safe_name prefecture ++ "/" ++ safe_name city ++
    "/files/" ++ sha1h file_final ++ spec_claimed_ext ct file_final

/-- Save path for a persisted HTML page
(`out_dir / safe_name(pref) / safe_name(city) / "pages" / sha1(final).html`). -/
def page_save_path (sha1h : String → String)
    (out_dir prefecture city final_page_url : String) : String :=
  out_dir ++ "/" ++ safe_name prefecture ++ "/" ++ safe_name city ++
    "/pages/" ++ sha1h final_page_url ++ ".html"

/-!  Manifest journal replay (`load_manifest_cache`). -/

/-- The `etag` / `last_modified` / `content_sha1` snapshot stored per seed. -/
structure SeedMeta where
  etag : String
  last_modified : String
  content_sha1 : String
deriving DecidableEq

/-- One line of the manifest journal, as `load_manifest_cache` sees it.
`junk` is a blank line or a line that is not valid JSON (skipped by the
`try/except` around `json.loads`); `other` is a valid record whose `event`
is none of the four replayed tags.  A field of type `Option String` is
`none` when the key is absent or its value is not a string (the writer only
ever emits strings). -/
inductive JLine where
  | junk : JLine
  | other : JLine
  | downloaded_file (file_url : Option String) : JLine
  | saved_page (page_url : Option String) : JLine
  | seed_done (seed_url : Option String) : JLine
  | seed_state (seed_url : Option String)
      (etag last_modified content_sha1 : Option String) : JLine
deriving DecidableEq

/-- The resume cache rebuilt from the journal.  Sets are lists under
membership; `seed_meta` is an association list where the latest binding is
at the front, so `List.lookup` yields the overwrite (dict) semantics. -/
structure ManifestCache where
  downloaded_file_urls : List String
  saved_page_urls : List String
  completed_seeds : List String
  seed_meta : List (String × SeedMeta)
deriving DecidableEq

/-- Replay of a single journal record onto the cache, mirroring the event
dispatch in `load_manifest_cache`: a URL field is used only when it is a
non-empty string, and it is normalized before insertion. -/
def applyLine (c : ManifestCache) : JLine → ManifestCache
  | .junk => c
  | .other => c
  | .downloaded_file u =>
    match u with
    | some s =>
      if s ≠ "" then
        { c with downloaded_file_urls := normalize_url s :: c.downloaded_file_urls }
      else c
    | none => c
  | .saved_page u =>
    match u with
    | some s =>
      if s ≠ "" then
        { c with saved_page_urls := normalize_url s :: c.saved_page_urls }
      else c
    | none => c
  | .seed_done u =>
    match u with
    | some s =>
      if s ≠ "" then
        { c with completed_seeds := normalize_url s :: c.completed_seeds }
      else c
    | none => c
  | .seed_state su et lm sha =>
    match su with
    | some s =>
      if s ≠ "" then
        { c with seed_meta :=
            (normalize_url s, ⟨et.getD "", lm.getD "", sha.getD ""⟩) :: c.seed_meta }
      else c
    | none => c

/-- `load_manifest_cache`: linear replay of the journal onto an empty cache. -/
def load_manifest_cache (lines : List JLine) : ManifestCache :=
  lines.foldl applyLine ⟨[], [], [], []⟩

/-- The snapshot a single journal line contributes for normalized seed URL
`k`, if it is a `seed_state` record for `k`. -/
def metaOf (l : JLine) (k : String) : Option SeedMeta :=
  match l with
  | .seed_state (some s) et lm sha =>
    if s ≠ "" ∧ normalize_url s = k then some ⟨et.getD "", lm.getD "", sha.getD ""⟩
    else none
  | _ => none

/-- Spec-side map semantics: the snapshot of the last `seed_state` record for
normalized seed URL `k` in the journal (later records overwrite earlier). -/
def lastSeedMeta : List JLine → String → Option SeedMeta
  | [], _ => none
  | l :: ls, k =>
    match lastSeedMeta ls k with
    | some m => some m
    | none => metaOf l k

/-!  Domain rate limiter (`DomainRateLimiter.wait`). -/

/-- Python two-argument `max` on rationals (an explicit `if` so that it
also evaluates inside the kernel). -/
def qmax (a b : ℚ) : ℚ := if a ≤ b then b else a

/-- The per-host next-allowed map (`netloc -> epoch seconds`), newest binding
in front. -/
def RateMap : Type := List (String × ℚ)

/-- `DomainRateLimiter.wait(url, delay_sec)` at wall-clock instant `now`.
Returns the duration slept and the updated map.  A hostless URL or a
non-positive delay returns immediately and leaves the map unchanged;
otherwise the stored next-allowed instant `nxt` (defaulting to `now`) gives
`sleep_for = max 0 (nxt - now)` and the new entry `max now nxt + delay_sec`. -/
def limiter_wait (m : RateMap) (url : String) (delay_sec now : ℚ) : ℚ × RateMap :=
  let netloc := netlocOf url
  if netloc = "" ∨ delay_sec ≤ 0 then (0, m)
  else
    let nxt := ((List.lookup netloc m).getD now : ℚ)
    let sleep_for := qmax 0 (nxt - now)
    let base := qmax now nxt
    (sleep_for, (netloc, base + delay_sec) :: m)

/-- A sequence of `wait` calls: each element is `(url, delay_sec, now)`. -/
def limiter_run (m : RateMap) : List (String × ℚ × ℚ) → RateMap
  | [] => m
  | (url, delay_sec, now) :: rest =>
    limiter_run (limiter_wait m url delay_sec now).2 rest

/-!  Seed revalidation (`fetch_seed_state`). -/

/-- Outcome of the conditional GET issued by `fetch_seed_state`.  On a 200
response the raw `ETag` / `Last-Modified` header values and the SHA-1 of the
body (`sha1_bytes`, abstracted as the resulting hex string, which is never
empty) are carried; `httpError` covers `HTTPError` (in particular 304) and
`otherError` every other exception. -/
inductive SeedFetchOutcome where
  | ok (etag last_modified content_sha1 : String) : SeedFetchOutcome
  | httpError (code : Nat) : SeedFetchOutcome
  | otherError : SeedFetchOutcome
deriving DecidableEq

/-- `fetch_seed_state`: decide whether a completed seed has changed.  Returns
`(changed, new_meta)`. -/
def fetch_seed_state (outcome : SeedFetchOutcome) (prev_meta : Option SeedMeta) :
    Bool × SeedMeta :=
  match outcome with
  | .ok et lm sha =>
    let etag := strTrim et
    let last_mod := strTrim lm
    let new_meta : SeedMeta := ⟨etag, last_mod, sha⟩
    match prev_meta with
    | none => (true, new_meta)
    | some pm =>
      let old_sha1 := strTrim pm.content_sha1
      if old_sha1 ≠ "" ∧ old_sha1 = sha then (false, new_meta)
      else
        let old_et := strTrim pm.etag
        let old_lm := strTrim pm.last_modified
        if old_et ≠ "" ∧ etag ≠ "" ∧ old_et = etag then (false, new_meta)
        else if old_lm ≠ "" ∧ last_mod ≠ "" ∧ old_lm = last_mod then (false, new_meta)
        else (true, new_meta)
  | .httpError code =>
    if code = 304 then (false, (prev_meta.getD ⟨"", "", ""⟩))
    else (true, (prev_meta.getD ⟨"", "", ""⟩))
  | .otherError => (true, (prev_meta.getD ⟨"", "", ""⟩))

/-!  Robots registry (`RobotsManager`). -/

/-- `urllib.parse.urlparse(url).scheme` (lower-cased, `""` when absent). -/
def schemeOf (url : String) : String :=
  match splitAtColon url.toList with
  | none => ""
  | some (before, _) =>
    if before ≠ [] ∧ before.all isSchemeChar then strLower (String.mk before) else ""

/-- `RobotsManager._robots_url`: `<scheme or https>://<netloc>/robots.txt`. -/
def robots_url_of (any_url : String) : String :=
  (if schemeOf any_url = "" then "https" else schemeOf any_url) ++
    "://" ++ netlocOf any_url ++ "/robots.txt"

/-- A parsed robots policy (`robotparser.RobotFileParser` after `parse`):
`canFetchFn ua url` is `rp.can_fetch(ua, url)` and `crawlDelayFn ua` is
`rp.crawl_delay(ua)` (already coerced to a rational). -/
structure RParser where
  canFetchFn : String → String → Bool
  crawlDelayFn : String → Option ℚ

/-- The manager's mutable maps: `_cache` (netloc to parsed policy, newest in
front) and `_cache_fail` (netlocs whose load failed, sticky). -/
structure RobotsState where
  cache : List (String × RParser)
  cache_fail : List String

/-- `RobotsManager._get_parser` in a single-threaded run.  `load` abstracts
fetching and parsing `robots.txt` (`none` = any network, HTTP or parse
error).  Returns the parser (if any), the updated state, and whether a
`robots.txt` load was issued by this call. -/
def getParser (load : String → Option RParser) (st : RobotsState)
    (any_url : String) : Option RParser × RobotsState × Bool :=
  let netloc := netlocOf any_url
  if netloc = "" then (none, st, false)
  else match List.lookup netloc st.cache with
    | some rp => (some rp, st, false)
    | none =>
      if netloc ∈ st.cache_fail then (none, st, false)
      else match load (robots_url_of any_url) with
        | some rp => (some rp, { st with cache := (netloc, rp) :: st.cache }, true)
        | none => (none, { st with cache_fail := netloc :: st.cache_fail }, true)

/-- `RobotsManager.can_fetch`: normalize, get the parser, default to allow
when there is none.  (The `try/except` around `rp.can_fetch` is absorbed by
`canFetchFn` being total.) -/
def robots_can_fetch (load : String → Option RParser) (ua : String)
    (st : RobotsState) (url : String) : Bool × RobotsState :=
  let u := normalize_url url
  match getParser load st u with
  | (none, st2, _) => (true, st2)
  | (some rp, st2, _) => (rp.canFetchFn ua u, st2)

/-- `RobotsManager.crawl_delay`: normalize, get the parser, return its delay
for the configured user agent, absent when there is no parser. -/
def robots_crawl_delay (load : String → Option RParser) (ua : String)
    (st : RobotsState) (url : String) : Option ℚ × RobotsState :=
  let u := normalize_url url
  match getParser load st u with
  | (none, st2, _) => (none, st2)
  | (some rp, st2, _) => (rp.crawlDelayFn ua, st2)

/-!  Two workers racing through `_get_parser` for the same URL.

The mutex protects the cache maps only: the initial cache/fail check is one
atomic step and the store of the fetch result is another, but the
`robots.txt` fetch itself happens with the lock released.  A thread is in
phase `start` before its cache check, in phase `fetched r` after it missed
the cache and completed the network load with result `r`, and in `done r`
once it has returned `r`.  `loads` counts issued `robots.txt` fetches. -/

inductive TPhase where
  | start : TPhase
  | fetched (r : Option RParser) : TPhase
  | done (r : Option RParser) : TPhase

/-- Shared state of the two-thread robots race. -/
structure CState where
  cache : List (String × RParser)
  cache_fail : List String
  t1 : TPhase
  t2 : TPhase
  loads : Nat

/-- One atomic step of a single thread running `_get_parser(u)`:
`start` performs the locked cache check and, on a miss, the network load;
`fetched` performs the locked store of the result; `done` is inert. -/
def phaseStep (load : String → Option RParser) (u : String)
    (cache : List (String × RParser)) (cache_fail : List String) (loads : Nat) :
    TPhase → TPhase × List (String × RParser) × List String × Nat
  | .start =>
    let netloc := netlocOf u
    if netloc = "" then (.done none, cache, cache_fail, loads)
    else match List.lookup netloc cache with
      | some rp => (.done (some rp), cache, cache_fail, loads)
      | none =>
        if netloc ∈ cache_fail then (.done none, cache, cache_fail, loads)
        else (.fetched (load (robots_url_of u)), cache, cache_fail, loads + 1)
  | .fetched r =>
    let netloc := netlocOf u
    match r with
    | some rp => (.done r, (netloc, rp) :: cache, cache_fail, loads)
    | none => (.done r, cache, netloc :: cache_fail, loads)
  | .done r => (.done r, cache, cache_fail, loads)

/-- Scheduler step: `tid = true` advances thread 1, else thread 2. -/
def rstep (load : String → Option RParser) (u : String) (s : CState)
    (tid : Bool) : CState :=
  match tid with
  | true =>
    let out := phaseStep load u s.cache s.cache_fail s.loads s.t1
    { s with t1 := out.1, cache := out.2.1, cache_fail := out.2.2.1, loads := out.2.2.2 }
  | false =>
    let out := phaseStep load u s.cache s.cache_fail s.loads s.t2
    { s with t2 := out.1, cache := out.2.1, cache_fail := out.2.2.1, loads := out.2.2.2 }

/-- Run a schedule (list of thread choices) from a state. -/
def runSched (load : String → Option RParser) (u : String) : CState → List Bool → CState
  | s, [] => s
  | s, tid :: rest => runSched load u (rstep load u s tid) rest

/-- Both threads poised to call `_get_parser(u)` on a fresh registry. -/
def initCState : CState :=
  { cache := [], cache_fail := [], t1 := .start, t2 := .start, loads := 0 }

/-- A thread counts toward the load bound once it has left `start`. -/
def phCnt : TPhase → Nat
  | .start => 0
  | .fetched _ => 1
  | .done _ => 1

/-- Phases reachable when the load for `u` succeeds with `rp`. -/
def phOK (rp : RParser) (ph : TPhase) : Prop :=
  ph = .start ∨ ph = .fetched (some rp) ∨ ph = .done (some rp)

/-- Run invariant of the two-thread robots race when loading `u`'s
`robots.txt` succeeds with `rp`: the cache only ever holds `(netloc u, rp)`,
no failure is recorded, each thread is in a reachable phase, at most one
load per thread past `start` has been issued, at least one load has been
issued once anything moved, and a `done` thread implies a non-empty cache. -/
def raceInv (u : String) (rp : RParser) (s : CState) : Prop :=
  (∀ e ∈ s.cache, e = (netlocOf u, rp)) ∧
  s.cache_fail = [] ∧
  phOK rp s.t1 ∧ phOK rp s.t2 ∧
  s.loads ≤ phCnt s.t1 + phCnt s.t2 ∧
  (1 ≤ s.loads ∨ (s.t1 = .start ∧ s.t2 = .start ∧ s.cache = [])) ∧
  (((∃ r, s.t1 = .done r) ∨ (∃ r, s.t2 = .done r)) → s.cache ≠ [])

/-!  Seed scheduler (`round_robin_by_netloc`). -/

/-- One seed task `(prefecture, city, mode, seed_url)`. -/
structure SeedTask where
  prefecture : String
  city : String
  mode : String
  seed_url : String
deriving DecidableEq

/-- Buckets in insertion order (`defaultdict(deque)` over a dict that
preserves key insertion order). -/
def Buckets : Type := List (String × List SeedTask)

/-- The bucket for key `k` (thanks to `addToBucket`, keys are unique). -/
def bucketFind (b : Buckets) (k : String) : List SeedTask :=
  (List.lookup k b).getD []

/-- Append a task at the tail of its key's bucket, creating the bucket at
the end of the dict when the key is new. -/
def addToBucket : Buckets → String → SeedTask → Buckets
  | [], k, t => [(k, [t])]
  | (k2, ts) :: rest, k, t =>
    if k2 = k then (k2, ts ++ [t]) :: rest
    else (k2, ts) :: addToBucket rest k t

/-- Group the task list by the seed URL's netloc. -/
def buildBuckets (tasks : List SeedTask) : Buckets :=
  tasks.foldl (fun b t => addToBucket b (netlocOf t.seed_url) t) []

/-- Pop the head of bucket `k` if non-empty (`if buckets[k]: popleft()`). -/
def popBucket : Buckets → String → Option SeedTask × Buckets
  | [], _ => (none, [])
  | (k2, ts) :: rest, k =>
    if k2 = k then
      match ts with
      | [] => (none, (k2, ts) :: rest)
      | t :: ts2 => (some t, (k2, ts2) :: rest)
    else
      let r := popBucket rest k
      (r.1, (k2, ts) :: r.2)

/-- One round of the while loop: take one task from each listed key's bucket
in order, and keep a key for the next round iff its bucket is still
non-empty right after its pop. -/
def popRound (b : Buckets) : List String → List SeedTask × Buckets × List String
  | [] => ([], b, [])
  | k :: ks =>
    let pb := popBucket b k
    let r := popRound pb.2 ks
    (pb.1.toList ++ r.1, r.2.1, (if bucketFind pb.2 k ≠ [] then [k] else []) ++ r.2.2)

/-- Total number of queued tasks across all buckets. -/
def totalSize (b : Buckets) : Nat :=
  (b.map (fun kv => kv.2.length)).sum

/-!  Crawl worker (`crawl_and_collect`): per-seed BFS.

The network is abstracted as `net : String → FetchOutcome`; the HTML link
extractor output for a fetched page travels inside `FetchOk.links`
(`none` models a parser exception, in which case the page yields no links).
`can_fetch` abstracts the robots registry decision (deterministic per URL in
a run thanks to the sticky cache), `urljoin` the standard-library function of
that name, and `sha1h` the `sha1_hex` digest.  The rate-limiter wait has no
effect on control flow and is omitted.  `fetched_log` records, in order, the
URLs whose page fetch succeeded: it is ghost instrumentation mirroring the
`pages_fetched` counter (the counter is bumped exactly when a URL is
appended), used only to state properties. -/

/-- Crawl parameters (`CrawlConfig` in the source). -/
structure CrawlConfig where
  max_depth : Nat
  max_pages : Nat
  delay_sec : ℚ
  timeout_sec : Nat
  user_agent : String
  keywords : List String
  file_exts : List String
  url_hints : List String
  same_domain_only : Bool
  same_path_prefix_only : Bool
  respect_robots : Bool

/-- A successful HTTP exchange (`FetchResult` restricted to what the crawl
loop consumes). -/
structure FetchOk where
  final_url : String
  content_type : String
  body : String
  links : Option (List (String × String))
deriving DecidableEq

/-- Outcome of `fetch_url`: success, `HTTPError`, `URLError`, or any other
exception. -/
inductive FetchOutcome where
  | ok (r : FetchOk) : FetchOutcome
  | httpError (code : Nat) : FetchOutcome
  | urlError (reason : String) : FetchOutcome
  | exn (msg : String) : FetchOutcome
deriving DecidableEq

/-- Manifest events emitted inside one seed's crawl (timestamps, prefecture
and city fields omitted: they are constant per seed). -/
inductive Ev where
  | robots_disallow (url : String) : Ev
  | fetch_error (url error : String) : Ev
  | saved_page (page_url path content_type : String) : Ev
  | skip_save_page_already_done (page_url : String) : Ev
  | downloaded_file (source_page file_url content_type path : String) : Ev
  | skip_download_already_done (file_url : String) : Ev
  | found_minutes_link (source_page link_url anchor_text : String) : Ev
  | download_error (source_page file_url error : String) : Ev
deriving DecidableEq

/-- The classification string attached to an error outcome (`"HTTPError
{code}"`, `"URLError {reason}"`, `repr(e)` abstracted as the message). -/
def errRepr : FetchOutcome → String
  | .ok _ => ""
  | .httpError code => "HTTPError " ++ toString code
  | .urlError reason => "URLError " ++ reason
  | .exn msg => msg

/-- Fixed context of one seed's crawl. -/
structure CrawlEnv where
  net : String → FetchOutcome
  can_fetch : String → Bool
  urljoin : String → String → String
  sha1h : String → String
  cfg : CrawlConfig
  out_dir : String
  prefecture : String
  city : String
  save_pages : Bool
  download_files : Bool
  resume : Bool
  force_download : Bool
  base_netloc : String
  base_pref : String
  base_path : String

/-- Mutable state of one seed's crawl.  `visited`, `downloaded` and
`saved_pages` are sets (lists under membership, insertion at the front);
`found_minutes` is the ordered result list (the source's `found_set` is its
membership); `events` is the manifest trace in order. -/
structure CrawlState where
  visited : List String
  found_minutes : List String
  downloaded : List String
  saved_pages : List String
  events : List Ev
  pages_fetched : Nat
  fetched_log : List String
deriving DecidableEq

/-- Result of processing the links of one page: updated state plus the
`(url, depth)` pairs appended to the BFS queue. -/
structure StepOut where
  st : CrawlState
  pushed : List (String × Nat)
deriving DecidableEq

/-- The `for href, text in parser.links` loop of `crawl_and_collect`
(lines 798-911): resolve and filter each link, record minutes-like links
(downloading them when enabled), and enqueue the rest for the BFS. -/
def processLinks (env : CrawlEnv) (depth : Nat) (final_page_url : String) :
    CrawlState → List (String × String) → StepOut
  | st, [] => ⟨st, []⟩
  | st, (href, text) :: restL =>
    let keep : CrawlState → StepOut := fun s => processLinks env depth final_page_url s restL
    let withPush : CrawlState → List (String × Nat) → StepOut := fun s q =>
      let out := processLinks env depth final_page_url s restL
      ⟨out.st, q ++ out.pushed⟩
    let abs_url := normalize_url (env.urljoin final_page_url href)
    if abs_url = "" then keep st
    else
      let low := strLower abs_url
      if strStartsWith low "mailto:" ∨ strStartsWith low "javascript:" ∨ strStartsWith low "tel:" then
        keep st
      else if env.cfg.same_domain_only ∧ netlocOf abs_url ≠ "" ∧
          netlocOf abs_url ≠ env.base_netloc then
        keep st
      else if looks_like_minutes_link abs_url text env.cfg.keywords env.cfg.file_exts
          env.cfg.url_hints then
        let st1 :=
          if abs_url ∈ st.found_minutes then st
          else
            { st with
                found_minutes := st.found_minutes ++ [abs_url],
                events := st.events ++ [.found_minutes_link final_page_url abs_url text] }
        if env.download_files then
          let ext := strLower (pathSuffix (urlPath abs_url))
          if ext ∈ env.cfg.file_exts then
            if env.cfg.respect_robots ∧ ¬ env.can_fetch abs_url then
              keep { st1 with events := st1.events ++ [.robots_disallow abs_url] }
            else if env.resume ∧ ¬ env.force_download ∧ abs_url ∈ st1.downloaded then
              keep { st1 with events := st1.events ++ [.skip_download_already_done abs_url] }
            else match env.net abs_url with
              | .ok fr =>
                let fct := strLower fr.content_type
                let file_final := normalize_url fr.final_url
                if env.resume ∧ ¬ env.force_download ∧ file_final ∈ st1.downloaded then
                  keep { st1 with events :=
                      st1.events ++ [.skip_download_already_done file_final] }
                else
                  keep { st1 with
                      downloaded := file_final :: st1.downloaded,
                      events := st1.events ++ [.downloaded_file final_page_url file_final
                        fr.content_type (link_download_path env.sha1h env.out_dir
                          env.prefecture env.city fct file_final ext)] }
              | e =>
                keep { st1 with events :=
                    st1.events ++ [.download_error final_page_url abs_url (errRepr e)] }
          else keep st1
        else keep st1
      else
        if depth < env.cfg.max_depth then
          if env.cfg.same_path_prefix_only ∧ urlPath abs_url ≠ "" ∧
              ¬ strStartsWith (urlPath abs_url) env.base_pref ∧
              urlPath abs_url ≠ env.base_path then
            keep st
          else if abs_url ∉ st.visited then withPush st [(abs_url, depth + 1)]
          else keep st
        else keep st

/-- The binary direct-hit branch of the loop (lines 721-756): record the
final URL as a minutes hit (silently, no manifest event), then download
unless already done.  `url` is the requested (pre-redirect) URL, recorded
as `source_page`. -/
def binary_hit_state (env : CrawlEnv) (url : String) (st : CrawlState)
    (r : FetchOk) : CrawlState :=
  let ct := strLower r.content_type
  let file_final := normalize_url r.final_url
  let st2 :=
    if file_final ∈ st.found_minutes then st
    else { st with found_minutes := st.found_minutes ++ [file_final] }
  if env.download_files then
    if env.resume ∧ ¬ env.force_download ∧ file_final ∈ st2.downloaded then
      { st2 with events := st2.events ++ [.skip_download_already_done file_final] }
    else
      { st2 with
          downloaded := file_final :: st2.downloaded,
          events := st2.events ++ [.downloaded_file url file_final
            r.content_type (direct_download_path env.sha1h env.out_dir
              env.prefecture env.city ct file_final)] }
  else st2

/-- The page-saving branch of the loop (lines 763-789). -/
def save_page_state (env : CrawlEnv) (final_page_url content_type : String)
    (st : CrawlState) : CrawlState :=
  if env.resume ∧ final_page_url ∈ st.saved_pages then
    { st with events := st.events ++ [.skip_save_page_already_done final_page_url] }
  else
    { st with
        saved_pages := final_page_url :: st.saved_pages,
        events := st.events ++ [.saved_page final_page_url
          (page_save_path env.sha1h env.out_dir env.prefecture env.city
            final_page_url) content_type] }

/-- The BFS loop of `crawl_and_collect` (lines 652-911).  One iteration pops
the queue head, applies the visited / scope / robots filters, fetches, and
handles the binary-direct-hit or HTML branch.  The page counter is bumped at
the tail of each successful-fetch branch (the source bumps it right after
`fetch_url` returns; nothing in between reads it, so this is the same
function), which makes the termination measure
`(max_pages - pages_fetched, |queue|)` decrease syntactically. -/
def crawl_loop (env : CrawlEnv) (queued : List (String × Nat)) (st : CrawlState) :
    CrawlState :=
  match queued with
  | [] => st
  | (url0, depth) :: rest =>
    if hpf : st.pages_fetched < env.cfg.max_pages then
      let url := normalize_url url0
      if url ∈ st.visited then crawl_loop env rest st
      else
        let st1 := { st with visited := url :: st.visited }
        if env.cfg.same_domain_only ∧ netlocOf url ≠ "" ∧
            netlocOf url ≠ env.base_netloc then
          crawl_loop env rest st1
        else if env.cfg.same_path_prefix_only ∧ urlPath url ≠ "" ∧
            ¬ strStartsWith (urlPath url) env.base_pref ∧ urlPath url ≠ env.base_path then
          crawl_loop env rest st1
        else if env.cfg.respect_robots ∧ ¬ env.can_fetch url then
          crawl_loop env rest { st1 with events := st1.events ++ [.robots_disallow url] }
        else match env.net url with
          | .httpError code =>
            crawl_loop env rest
              { st1 with events := st1.events ++
                  [.fetch_error url (errRepr (.httpError code))] }
          | .urlError reason =>
            crawl_loop env rest
              { st1 with events := st1.events ++
                  [.fetch_error url (errRepr (.urlError reason))] }
          | .exn msg =>
            crawl_loop env rest
              { st1 with events := st1.events ++ [.fetch_error url (errRepr (.exn msg))] }
          | .ok r =>
            let final_page_url := normalize_url r.final_url
            let ct := strLower r.content_type
            if is_probably_binary ct then
              crawl_loop env rest
                { binary_hit_state env url st1 r with
                    pages_fetched := st.pages_fetched + 1,
                    fetched_log := st.fetched_log ++ [url] }
            else
              let st2 :=
                if env.save_pages then
                  save_page_state env final_page_url r.content_type st1
                else st1
              match r.links with
              | none =>
                crawl_loop env rest
                  { st2 with
                      pages_fetched := st.pages_fetched + 1,
                      fetched_log := st.fetched_log ++ [url] }
              | some links =>
                let so := processLinks env depth final_page_url st2 links
                crawl_loop env (rest ++ so.pushed)
                  { so.st with
                      pages_fetched := st.pages_fetched + 1,
                      fetched_log := st.fetched_log ++ [url] }
    else st
termination_by (env.cfg.max_pages - st.pages_fetched, queued.length)
decreasing_by
  all_goals simp_wf
  all_goals first
    | exact Prod.Lex.right _ (Nat.lt_succ_self _)
    | exact Prod.Lex.left _ _ (Nat.sub_lt_sub_left hpf (Nat.lt_succ_self _))

/-- `crawl_and_collect`: run the BFS from a normalized seed, starting from
the shared resume sets `downloaded0` / `saved0`. -/
def crawl_and_collect (net : String → FetchOutcome) (can_fetch : String → Bool)
    (urljoin : String → String → String) (sha1h : String → String)
    (cfg : CrawlConfig) (out_dir prefecture city : String)
    (save_pages download_files resume force_download : Bool)
    (start_url : String) (downloaded0 saved0 : List String) : CrawlState :=
  let s := normalize_url start_url
  let env : CrawlEnv :=
    { net := net, can_fetch := can_fetch, urljoin := urljoin, sha1h := sha1h,
      cfg := cfg, out_dir := out_dir, prefecture := prefecture, city := city,
      save_pages := save_pages, download_files := download_files,
      resume := resume, force_download := force_download,
      base_netloc := netlocOf s,
      base_pref := String.mk (((urlPath s).toList.reverse.dropWhile
        (fun c => c = '/')).reverse) ++ "/",
      base_path := urlPath s }
  crawl_loop env [(s, 0)]
    { visited := [], found_minutes := [], downloaded := downloaded0,
      saved_pages := saved0, events := [], pages_fetched := 0, fetched_log := [] }

/-- Rounds of the while loop of `round_robin_by_netloc`.  `fuel` bounds the
number of rounds; it is only a termination device: every round that keeps a
key has popped at least one task, so `totalSize b + 1` rounds always reach
the empty key list and the fuel case is never taken from `round_robin_by_netloc`
(established by the theorems below). -/
def drainF : Nat → Buckets → List String → List SeedTask
  | _, _, [] => []
  | 0, _, _ :: _ => []
  | fuel + 1, b, k :: ks =>
    let r := popRound b (k :: ks)
    r.1 ++ drainF fuel r.2.1 r.2.2

/-- The round-robin key list: non-empty netlocs in first-appearance order. -/
def rrKeys (b : Buckets) : List String :=
  (b.map Prod.fst).filter (fun k => k ≠ "")

/-- The host-interleaved part of the output (everything before the hostless
tail). -/
def hostedPart (tasks : List SeedTask) : List SeedTask :=
  drainF (totalSize (buildBuckets tasks) + 1) (buildBuckets tasks)
    (rrKeys (buildBuckets tasks))

/-- `round_robin_by_netloc`: group by netloc, emit one task per non-empty
group in rotation, hostless tasks at the tail. -/
def round_robin_by_netloc (tasks : List SeedTask) : List SeedTask :=
  hostedPart tasks ++ bucketFind (buildBuckets tasks) ""

/-- Concatenation of the buckets listed in `keys`, in that order. -/
def joinAt (b : Buckets) (keys : List String) : List SeedTask :=
  (keys.map (bucketFind b)).flatten

/-- All queued tasks of all buckets, in dict order. -/
def flattenB (b : Buckets) : List SeedTask :=
  (b.map Prod.snd).flatten

/-- A concrete single-page environment used to instantiate theorems with
hypotheses: fetching `http://h/a` yields an HTML page with no links,
`http://h/err` a 404, anything else a generic exception. -/
def sampleEnv : CrawlEnv :=
  { net := fun u =>
      if u = "http://h/a" then .ok ⟨"http://h/a", "text/html", "", some []⟩
      else if u = "http://h/err" then .httpError 404
      else .exn "boom",
    can_fetch := fun _ => true,
    urljoin := fun _ rel => rel,
    sha1h := fun _ => "H",
    cfg := { max_depth := 0, max_pages := 1, delay_sec := 0, timeout_sec := 1,
             user_agent := "UA", keywords := [], file_exts := [], url_hints := [],
             same_domain_only := false, same_path_prefix_only := false,
             respect_robots := false },
    out_dir := "o", prefecture := "P", city := "C",
    save_pages := false, download_files := false,
    resume := true, force_download := false,
    base_netloc := "h", base_pref := "/", base_path := "/" }

/-- The empty crawl state every seed starts from. -/
def emptyCrawlState : CrawlState :=
  { visited := [], found_minutes := [], downloaded := [], saved_pages := [],
    events := [], pages_fetched := 0, fetched_log := [] }

/-!  ## Theorems -/

/-- C3: `looks_like_minutes_link(u, t, K, E, H)` returns true iff the
lower-cased URL ends with an extension in `E`, or the lower-cased URL
contains a substring in `H`, or the whitespace-stripped anchor text contains
a keyword of `K` (case-sensitive substring), or the original non-lowercased
URL contains a keyword of `K`; in particular, empty anchor text with a URL
ending in an extension of `E` still yields true. -/
theorem claim_c3_looks_like_minutes_link :
    (∀ (url anchor_text : String) (keywords file_exts url_hints : List String),
      looks_like_minutes_link url anchor_text keywords file_exts url_hints = true ↔
        ((∃ ext ∈ file_exts, strEndsWith (strLower url) ext = true) ∨
         (∃ h ∈ url_hints, strContains (strLower url) h = true) ∨
         (∃ k ∈ keywords, strContains (strTrim anchor_text) k = true) ∨
         (∃ k ∈ keywords, strContains url k = true))) ∧
    (∀ (url : String) (keywords file_exts url_hints : List String) (ext : String),
      ext ∈ file_exts → strEndsWith (strLower url) ext = true →
      looks_like_minutes_link url "" keywords file_exts url_hints = true) := by
  constructor
  · intro url t K E H
    simp only [looks_like_minutes_link, Bool.or_eq_true, List.any_eq_true, or_assoc]
  · intro url K E H ext hm he
    simp only [looks_like_minutes_link, Bool.or_eq_true, List.any_eq_true]
    exact Or.inl (Or.inl (Or.inl ⟨ext, hm, he⟩))

/-- Witness for C3: a URL with a matching (case-insensitively compared)
extension and empty anchor text is minutes-like. -/
theorem claim_c3_witness :
    (".pdf" ∈ [".pdf", ".doc"]) ∧
    strEndsWith (strLower "http://h/X.PDF") ".pdf" = true ∧
    looks_like_minutes_link "http://h/X.PDF" "" ["議事録"] [".pdf", ".doc"] ["giji"] = true :=
  ⟨by decide, by decide,
    claim_c3_looks_like_minutes_link.2 "http://h/X.PDF" ["議事録"] [".pdf", ".doc"]
      ["giji"] ".pdf" (by decide) (by decide)⟩

/-- C1 counterexample: the minutes-link download step (step 8) does not
apply the step-6 extension rule.  With content type `application/pdf` and
final URL `http://h/a/x.doc`, step 8 writes `....doc` (path suffix first)
while the claimed rule gives `....pdf` (content type first). -/
theorem claim_c1_counterexample :
    link_download_path (fun _ => "HASH") "out" "P" "C" "application/pdf"
        "http://h/a/x.doc" ".doc" = "out/P/C/files/HASH.doc" ∧
    spec_claimed_path (fun _ => "HASH") "out" "P" "C" "application/pdf"
        "http://h/a/x.doc" = "out/P/C/files/HASH.pdf" ∧
    link_download_path (fun _ => "HASH") "out" "P" "C" "application/pdf"
        "http://h/a/x.doc" ".doc" ≠
      spec_claimed_path (fun _ => "HASH") "out" "P" "C" "application/pdf"
        "http://h/a/x.doc" :=
  ⟨by decide, by decide, by decide⟩

/-- C1 amended: both download sites write to
`<out>/<safe pref>/<safe city>/files/<sha1(finalURL)><ext>`, but only the
binary direct-hit step (step 6) derives `<ext>` from the content type first,
else the final URL's path suffix, else `.bin`; the minutes-link download
(step 8) derives `<ext>` from the final URL's lower-cased path suffix first,
else the content type, else the link URL's suffix, else `.bin`. -/
theorem claim_c1_download_paths (sha1h : String → String)
    (out_dir prefecture city ct fct file_final ext : String) :
    direct_download_path sha1h out_dir prefecture city ct file_final =
      out_dir ++ "/" ++ safe_name prefecture ++ "/" ++ safe_name city ++
        "/files/" ++ sha1h file_final ++ spec_claimed_ext ct file_final ∧
    link_download_path sha1h out_dir prefecture city fct file_final ext =
      out_dir ++ "/" ++ safe_name prefecture ++ "/" ++ safe_name city ++
        "/files/" ++ sha1h file_final ++
        (if strLower (pathSuffix (urlPath file_final)) ≠ "" then
          strLower (pathSuffix (urlPath file_final))
        else
          match guess_ext_from_content_type fct with
          | some e => e
          | none => if ext ≠ "" then ext else ".bin") := by
  constructor
  · unfold direct_download_path direct_hit_ext spec_claimed_ext
    cases guess_ext_from_content_type ct <;> simp
  · unfold link_download_path link_download_ext
    rfl

/-- C10: `DomainRateLimiter.wait` on a hostless URL or a non-positive delay
returns immediately without sleeping and leaves the per-host map entirely
unchanged. -/
theorem claim_c10_wait_noop (m : RateMap) (url : String) (delay_sec now : ℚ)
    (h : netlocOf url = "" ∨ delay_sec ≤ 0) :
    limiter_wait m url delay_sec now = (0, m) := by
  unfold limiter_wait
  rw [if_pos h]

/-- Witness for C10: delay `0` with the host's stored next-allowed instant
in the future (now = 0, stored = 100): no sleep, map untouched. -/
theorem claim_c10_witness :
    (netlocOf "http://h/x" = "" ∨ (0 : ℚ) ≤ 0) ∧
    limiter_wait [("h", 100)] "http://h/x" 0 0 = (0, [("h", 100)]) :=
  ⟨Or.inr le_rfl, claim_c10_wait_noop [("h", 100)] "http://h/x" 0 0 (Or.inr le_rfl)⟩

/-- C6: seed revalidation with prior metadata.  On a 200 response the seed
is unchanged iff the prior SHA-1 equals the new body SHA-1, or the prior
ETag is present and equals the new ETag, or the prior Last-Modified is
present and equals the new Last-Modified (the body SHA-1 of a 200 response
is a hex digest, hence non-empty).  On HTTP 304 the seed is unchanged with
the prior state kept; on any other HTTP error or network error it is
changed. -/
theorem claim_c6_fetch_seed_state :
    (∀ (et lm sha : String) (pm : SeedMeta), sha ≠ "" →
      ((fetch_seed_state (.ok et lm sha) (some pm)).1 = false ↔
        (strTrim pm.content_sha1 = sha ∨
         (strTrim pm.etag ≠ "" ∧ strTrim pm.etag = strTrim et) ∨
         (strTrim pm.last_modified ≠ "" ∧ strTrim pm.last_modified = strTrim lm)))) ∧
    (∀ pm : SeedMeta, fetch_seed_state (.httpError 304) (some pm) = (false, pm)) ∧
    (∀ (code : Nat) (pm : SeedMeta), code ≠ 304 →
      (fetch_seed_state (.httpError code) (some pm)).1 = true) ∧
    (∀ pm : SeedMeta, (fetch_seed_state .otherError (some pm)).1 = true) := by
  refine ⟨fun et lm sha pm hsha => ?_, fun pm => rfl, fun code pm hc => ?_, fun pm => rfl⟩
  · simp only [fetch_seed_state]
    split_ifs with h1 h2 h3
    · simpa using Or.inl h1.2
    · simpa using Or.inr (Or.inl ⟨h2.1, h2.2.2⟩)
    · simpa using Or.inr (Or.inr ⟨h3.1, h3.2.2⟩)
    · simp only [Bool.false_eq_true, false_iff]
      rintro (hs | ⟨hne, heq⟩ | ⟨hne, heq⟩)
      · exact h1 ⟨fun he => hsha (hs ▸ he), hs⟩
      · exact h2 ⟨hne, fun he => hne (heq.trans he), heq⟩
      · exact h3 ⟨hne, fun he => hne (heq.trans he), heq⟩
  · simp only [fetch_seed_state]
    rw [if_neg hc]

/-- Witness for C6: a 200 response matching the prior ETag (after header
trimming) is unchanged, and a 500 response is changed. -/
theorem claim_c6_witness :
    ((fetch_seed_state (.ok " E1 " "L1" "S") (some ⟨"E1", "X", "OLD"⟩)).1 = false ↔
      (strTrim "OLD" = "S" ∨
       (strTrim "E1" ≠ "" ∧ strTrim "E1" = strTrim " E1 ") ∨
       (strTrim "X" ≠ "" ∧ strTrim "X" = strTrim "L1"))) ∧
    (fetch_seed_state (.httpError 500) (some ⟨"a", "b", "c"⟩)).1 = true :=
  ⟨claim_c6_fetch_seed_state.1 " E1 " "L1" "S" ⟨"E1", "X", "OLD"⟩ (by decide),
   claim_c6_fetch_seed_state.2.2.1 500 ⟨"a", "b", "c"⟩ (by decide)⟩

/-- Helper: looking up the key just consed onto an association list. -/
theorem lookup_cons_self {β : Type} (k : String) (v : β) (l : List (String × β)) :
    List.lookup k ((k, v) :: l) = some v := by
  simp [List.lookup]

/-- Helper: a cons with a different key does not affect a lookup. -/
theorem lookup_cons_ne {β : Type} (k k2 : String) (v : β) (l : List (String × β))
    (h : k ≠ k2) : List.lookup k ((k2, v) :: l) = List.lookup k l := by
  simp [List.lookup, beq_false_of_ne h]

/-- Helper: `b ≤ qmax a b`. -/
theorem le_qmax_right (a b : ℚ) : b ≤ qmax a b := by
  unfold qmax
  split_ifs with hle
  · exact le_refl b
  · exact le_of_not_le hle

/-- Helper: one `wait` call never decreases any host's stored next-allowed
instant, and never removes an entry. -/
theorem limiter_wait_mono (m : RateMap) (url : String) (delay_sec now : ℚ)
    (h : String) (v : ℚ) (hv : List.lookup h m = some v) :
    ∃ v2, List.lookup h (limiter_wait m url delay_sec now).2 = some v2 ∧ v ≤ v2 := by
  unfold limiter_wait
  by_cases hg : netlocOf url = "" ∨ delay_sec ≤ 0
  · rw [if_pos hg]
    exact ⟨v, hv, le_refl v⟩
  · rw [if_neg hg]
    push_neg at hg
    by_cases heq : h = netlocOf url
    · subst heq
      refine ⟨qmax now ((List.lookup (netlocOf url) m).getD now) + delay_sec,
        lookup_cons_self _ _ _, ?_⟩
      rw [hv]
      simp only [Option.getD_some]
      have h1 : v ≤ qmax now v := le_qmax_right now v
      linarith [hg.2]
    · refine ⟨v, ?_, le_refl v⟩
      rw [lookup_cons_ne _ _ _ _ heq]
      exact hv

/-- Helper: monotonicity composes over a whole call sequence. -/
theorem limiter_run_mono (calls : List (String × ℚ × ℚ)) (m : RateMap)
    (h : String) (v : ℚ) (hv : List.lookup h m = some v) :
    ∃ v2, List.lookup h (limiter_run m calls) = some v2 ∧ v ≤ v2 := by
  induction calls generalizing m v with
  | nil => exact ⟨v, hv, le_refl v⟩
  | cons c rest ih =>
    obtain ⟨u, d, n⟩ := c
    obtain ⟨v1, hv1, hle1⟩ := limiter_wait_mono m u d n h v hv
    obtain ⟨v2, hv2, hle2⟩ := ih (limiter_wait m u d n).2 v1 hv1
    exact ⟨v2, hv2, le_trans hle1 hle2⟩

/-- C4 counterexample: the claim quantifies over every call, but a call with
delay `0` on a host whose stored next-allowed instant (100) lies in the
future of `now = 0` sleeps `0`, not `max(0, N - now) = 100`: the guard
`delay_sec <= 0` returns without sleeping. -/
theorem claim_c4_counterexample :
    ¬ ((limiter_wait [("h", 100)] "http://h/x" 0 0).1 =
        qmax 0 (((List.lookup "h" ([("h", 100)] : RateMap)).getD 0) - 0)) := by
  have hw : limiter_wait [("h", 100)] "http://h/x" 0 0 = (0, [("h", 100)]) := by
    unfold limiter_wait
    rw [if_pos (Or.inr (le_refl (0 : ℚ)))]
  rw [hw]
  norm_num [List.lookup, qmax]

/-- C4 amended: for every call with a host and a positive delay, `wait`
sleeps `max(0, N - now)` and stores `max(now, N) + delay` for that host (with
`N` the stored next-allowed instant, defaulting to `now`), leaving the other
hosts' entries unchanged; and across any sequence of `wait` calls — guarded
or not — every host's stored next-allowed instant is monotonically
non-decreasing. -/
theorem claim_c4_limiter_wait :
    (∀ (m : RateMap) (url : String) (delay_sec now : ℚ),
      netlocOf url ≠ "" → 0 < delay_sec →
      (limiter_wait m url delay_sec now).1 =
        qmax 0 (((List.lookup (netlocOf url) m).getD now) - now) ∧
      List.lookup (netlocOf url) (limiter_wait m url delay_sec now).2 =
        some (qmax now (((List.lookup (netlocOf url) m).getD now)) + delay_sec) ∧
      (∀ h2, h2 ≠ netlocOf url →
        List.lookup h2 (limiter_wait m url delay_sec now).2 = List.lookup h2 m)) ∧
    (∀ (calls : List (String × ℚ × ℚ)) (m : RateMap) (h : String) (v : ℚ),
      List.lookup h m = some v →
      ∃ v2, List.lookup h (limiter_run m calls) = some v2 ∧ v ≤ v2) := by
  constructor
  · intro m url delay_sec now hn hd
    have hg : ¬ (netlocOf url = "" ∨ delay_sec ≤ 0) := by
      push_neg
      exact ⟨hn, hd⟩
    refine ⟨?_, ?_, ?_⟩
    · unfold limiter_wait
      rw [if_neg hg]
    · unfold limiter_wait
      rw [if_neg hg]
      exact lookup_cons_self _ _ _
    · intro h2 hne
      unfold limiter_wait
      rw [if_neg hg]
      exact lookup_cons_ne _ _ _ _ hne
  · exact limiter_run_mono

/-- Witness for C4 at a concrete state: host `h` stored at 100, call at
`now = 30` with delay `1/2`: sleep `70`, store `100 + 1/2`; a second host
`g` stored at `7` is untouched and stays at least `7` across the run. -/
theorem claim_c4_witness :
    (netlocOf "http://h/x" ≠ "" ∧ (0 : ℚ) < 1/2) ∧
    ((limiter_wait [("h", 100), ("g", 7)] "http://h/x" (1/2) 30).1 =
        qmax 0 (((List.lookup (netlocOf "http://h/x")
          ([("h", 100), ("g", 7)] : RateMap)).getD 30) - 30) ∧
      List.lookup (netlocOf "http://h/x")
          (limiter_wait [("h", 100), ("g", 7)] "http://h/x" (1/2) 30).2 =
        some (qmax 30 (((List.lookup (netlocOf "http://h/x")
          ([("h", 100), ("g", 7)] : RateMap)).getD 30)) + 1/2) ∧
      (∀ h2, h2 ≠ netlocOf "http://h/x" →
        List.lookup h2 (limiter_wait [("h", 100), ("g", 7)] "http://h/x" (1/2) 30).2 =
          List.lookup h2 ([("h", 100), ("g", 7)] : RateMap))) ∧
    (∃ v2, List.lookup "g"
        (limiter_run [("h", 100), ("g", 7)] [("http://h/x", 1/2, 30)]) = some v2 ∧
      (7 : ℚ) ≤ v2) :=
  ⟨⟨by decide, by norm_num⟩,
   claim_c4_limiter_wait.1 [("h", 100), ("g", 7)] "http://h/x" (1/2) 30
     (by decide) (by norm_num),
   claim_c4_limiter_wait.2 [("http://h/x", 1/2, 30)] [("h", 100), ("g", 7)] "g" 7
     (by simp [List.lookup])⟩

/-- Helper: membership in `completed_seeds` after replaying onto an
arbitrary cache. -/
theorem completed_seeds_foldl (ls : List JLine) (c : ManifestCache) (u : String) :
    u ∈ (ls.foldl applyLine c).completed_seeds ↔
      (u ∈ c.completed_seeds ∨
        ∃ s, JLine.seed_done (some s) ∈ ls ∧ s ≠ "" ∧ normalize_url s = u) := by
  induction ls generalizing c with
  | nil => simp
  | cons l ls ih =>
    simp only [List.foldl_cons, ih, List.mem_cons]
    cases l with
    | junk => simp [applyLine]
    | other => simp [applyLine]
    | downloaded_file u0 =>
      cases u0 with
      | none => simp [applyLine]
      | some s => by_cases hs : s = "" <;> simp [applyLine, hs]
    | saved_page u0 =>
      cases u0 with
      | none => simp [applyLine]
      | some s => by_cases hs : s = "" <;> simp [applyLine, hs]
    | seed_done u0 =>
      cases u0 with
      | none => simp [applyLine]
      | some s =>
        by_cases hs : s = ""
        · simp [applyLine, hs]
        · simp only [applyLine, if_pos (show s ≠ "" from hs), List.mem_cons]
          aesop
    | seed_state u0 et lm sha =>
      cases u0 with
      | none => simp [applyLine]
      | some s => by_cases hs : s = "" <;> simp [applyLine, hs]

/-- Helper: membership in `downloaded_file_urls` after replay. -/
theorem downloaded_file_urls_foldl (ls : List JLine) (c : ManifestCache) (u : String) :
    u ∈ (ls.foldl applyLine c).downloaded_file_urls ↔
      (u ∈ c.downloaded_file_urls ∨
        ∃ s, JLine.downloaded_file (some s) ∈ ls ∧ s ≠ "" ∧ normalize_url s = u) := by
  induction ls generalizing c with
  | nil => simp
  | cons l ls ih =>
    simp only [List.foldl_cons, ih, List.mem_cons]
    cases l with
    | junk => simp [applyLine]
    | other => simp [applyLine]
    | saved_page u0 =>
      cases u0 with
      | none => simp [applyLine]
      | some s => by_cases hs : s = "" <;> simp [applyLine, hs]
    | seed_done u0 =>
      cases u0 with
      | none => simp [applyLine]
      | some s => by_cases hs : s = "" <;> simp [applyLine, hs]
    | downloaded_file u0 =>
      cases u0 with
      | none => simp [applyLine]
      | some s =>
        by_cases hs : s = ""
        · simp [applyLine, hs]
        · simp only [applyLine, if_pos (show s ≠ "" from hs), List.mem_cons]
          aesop
    | seed_state u0 et lm sha =>
      cases u0 with
      | none => simp [applyLine]
      | some s => by_cases hs : s = "" <;> simp [applyLine, hs]

/-- Helper: membership in `saved_page_urls` after replay. -/
theorem saved_page_urls_foldl (ls : List JLine) (c : ManifestCache) (u : String) :
    u ∈ (ls.foldl applyLine c).saved_page_urls ↔
      (u ∈ c.saved_page_urls ∨
        ∃ s, JLine.saved_page (some s) ∈ ls ∧ s ≠ "" ∧ normalize_url s = u) := by
  induction ls generalizing c with
  | nil => simp
  | cons l ls ih =>
    simp only [List.foldl_cons, ih, List.mem_cons]
    cases l with
    | junk => simp [applyLine]
    | other => simp [applyLine]
    | downloaded_file u0 =>
      cases u0 with
      | none => simp [applyLine]
      | some s => by_cases hs : s = "" <;> simp [applyLine, hs]
    | seed_done u0 =>
      cases u0 with
      | none => simp [applyLine]
      | some s => by_cases hs : s = "" <;> simp [applyLine, hs]
    | saved_page u0 =>
      cases u0 with
      | none => simp [applyLine]
      | some s =>
        by_cases hs : s = ""
        · simp [applyLine, hs]
        · simp only [applyLine, if_pos (show s ≠ "" from hs), List.mem_cons]
          aesop
    | seed_state u0 et lm sha =>
      cases u0 with
      | none => simp [applyLine]
      | some s => by_cases hs : s = "" <;> simp [applyLine, hs]

/-- Helper: the single-line effect of replay on the seed-state map. -/
theorem lookup_applyLine_seed_meta (c : ManifestCache) (l : JLine) (k : String) :
    List.lookup k (applyLine c l).seed_meta =
      (match metaOf l k with
       | some m => some m
       | none => List.lookup k c.seed_meta) := by
  cases l with
  | junk => simp [applyLine, metaOf]
  | other => simp [applyLine, metaOf]
  | downloaded_file u0 =>
    cases u0 with
    | none => simp [applyLine, metaOf]
    | some s => by_cases hs : s = "" <;> simp [applyLine, metaOf, hs]
  | saved_page u0 =>
    cases u0 with
    | none => simp [applyLine, metaOf]
    | some s => by_cases hs : s = "" <;> simp [applyLine, metaOf, hs]
  | seed_done u0 =>
    cases u0 with
    | none => simp [applyLine, metaOf]
    | some s => by_cases hs : s = "" <;> simp [applyLine, metaOf, hs]
  | seed_state u0 et lm sha =>
    cases u0 with
    | none => simp [applyLine, metaOf]
    | some s =>
      by_cases hs : s = ""
      · simp [applyLine, metaOf, hs]
      · by_cases hk : normalize_url s = k
        · simp only [applyLine, metaOf, if_pos (show s ≠ "" from hs),
            if_pos (show s ≠ "" ∧ normalize_url s = k from ⟨hs, hk⟩)]
          rw [hk, lookup_cons_self]
        · simp only [applyLine, metaOf, if_pos (show s ≠ "" from hs)]
          rw [if_neg (show ¬ (s ≠ "" ∧ normalize_url s = k) from fun h2 => hk h2.2)]
          exact lookup_cons_ne _ _ _ _ (fun he => hk he.symm)

/-- Helper: replay realises last-record-wins for the seed-state map. -/
theorem lookup_seed_meta_foldl (ls : List JLine) (c : ManifestCache) (k : String) :
    List.lookup k (ls.foldl applyLine c).seed_meta =
      (match lastSeedMeta ls k with
       | some m => some m
       | none => List.lookup k c.seed_meta) := by
  induction ls generalizing c with
  | nil => simp [lastSeedMeta]
  | cons l ls ih =>
    simp only [List.foldl_cons, ih, lookup_applyLine_seed_meta, lastSeedMeta]
    cases lastSeedMeta ls k <;> cases metaOf l k <;> simp

/-- C2: `load_manifest_cache` (linear replay, ignoring invalid lines)
reconstructs: `completed_seeds` as exactly the normalized non-empty
`seed_url`s of `seed_done` records, `downloaded_file_urls` as those of
`downloaded_file` records, `saved_page_urls` as those of `saved_page`
records, and `seed_meta` as mapping each normalized seed URL to the
snapshot of its last `seed_state` record. -/
theorem claim_c2_load_manifest_cache (lines : List JLine) :
    (∀ u, u ∈ (load_manifest_cache lines).completed_seeds ↔
      ∃ s, JLine.seed_done (some s) ∈ lines ∧ s ≠ "" ∧ normalize_url s = u) ∧
    (∀ u, u ∈ (load_manifest_cache lines).downloaded_file_urls ↔
      ∃ s, JLine.downloaded_file (some s) ∈ lines ∧ s ≠ "" ∧ normalize_url s = u) ∧
    (∀ u, u ∈ (load_manifest_cache lines).saved_page_urls ↔
      ∃ s, JLine.saved_page (some s) ∈ lines ∧ s ≠ "" ∧ normalize_url s = u) ∧
    (∀ k, List.lookup k (load_manifest_cache lines).seed_meta = lastSeedMeta lines k) := by
  refine ⟨fun u => ?_, fun u => ?_, fun u => ?_, fun k => ?_⟩
  · rw [load_manifest_cache, completed_seeds_foldl]
    simp
  · rw [load_manifest_cache, downloaded_file_urls_foldl]
    simp
  · rw [load_manifest_cache, saved_page_urls_foldl]
    simp
  · rw [load_manifest_cache, lookup_seed_meta_foldl]
    cases lastSeedMeta lines k <;> simp [List.lookup]

/-- Helper: a successful lookup exhibits a member of the list. -/
theorem mem_of_lookup_eq_some {β : Type} {k : String} {v : β}
    {l : List (String × β)} (h : List.lookup k l = some v) : (k, v) ∈ l := by
  induction l with
  | nil => simp [List.lookup] at h
  | cons e rest ih =>
    obtain ⟨k2, v2⟩ := e
    by_cases hk : k = k2
    · subst hk
      rw [lookup_cons_self] at h
      cases h
      exact List.mem_cons_self _ _
    · rw [lookup_cons_ne _ _ _ _ hk] at h
      exact List.mem_cons_of_mem _ (ih h)

/-- C7: once loading `robots.txt` for a host fails, the host is recorded in
the sticky fail set; for any URL whose host is in the fail set (and not in
the cache), `can_fetch` answers true and `crawl_delay` absent with the state
unchanged and no load issued; and `can_fetch` answers true whenever
`_get_parser` yields no policy (hostless URL, unknown host, or prior
failure). -/
theorem claim_c7_robots_allow_all :
    (∀ (load : String → Option RParser) (st : RobotsState) (url : String),
      netlocOf url ≠ "" →
      List.lookup (netlocOf url) st.cache = none →
      netlocOf url ∉ st.cache_fail →
      load (robots_url_of url) = none →
      getParser load st url =
        (none, { st with cache_fail := netlocOf url :: st.cache_fail }, true)) ∧
    (∀ (load : String → Option RParser) (ua : String) (st : RobotsState) (url : String),
      netlocOf (normalize_url url) ∈ st.cache_fail →
      List.lookup (netlocOf (normalize_url url)) st.cache = none →
      (robots_can_fetch load ua st url = (true, st) ∧
       robots_crawl_delay load ua st url = (none, st) ∧
       (getParser load st (normalize_url url)).2.2 = false)) ∧
    (∀ (load : String → Option RParser) (ua : String) (st : RobotsState) (url : String),
      (getParser load st (normalize_url url)).1 = none →
      (robots_can_fetch load ua st url).1 = true) := by
  refine ⟨?_, ?_, ?_⟩
  · intro load st url hn hc hf hl
    simp only [getParser, if_neg hn, hc, if_neg hf, hl]
  · intro load ua st url hmem hc
    have hg : getParser load st (normalize_url url) = (none, st, false) := by
      by_cases hnet : netlocOf (normalize_url url) = ""
      · simp only [getParser, if_pos hnet]
      · simp only [getParser, if_neg hnet, hc, if_pos hmem]
    refine ⟨?_, ?_, ?_⟩
    · simp only [robots_can_fetch, hg]
    · simp only [robots_crawl_delay, hg]
    · rw [hg]
  · intro load ua st url hnone
    unfold robots_can_fetch
    dsimp only
    rcases hg : getParser load st (normalize_url url) with ⟨p, st2, b⟩
    rw [hg] at hnone
    simp only at hnone
    subst hnone
    rfl

/-- Witness for C7: `"h"` is in the fail set of a registry with an empty
cache: the query is allowed, no delay is reported, nothing is reloaded, and
a fresh failing load marks the host. -/
theorem claim_c7_witness :
    (robots_can_fetch (fun _ => none) "UA"
        { cache := [], cache_fail := ["h"] } "http://h/x" =
      (true, { cache := [], cache_fail := ["h"] }) ∧
     robots_crawl_delay (fun _ => none) "UA"
        { cache := [], cache_fail := ["h"] } "http://h/x" =
      (none, { cache := [], cache_fail := ["h"] }) ∧
     (getParser (fun _ => none)
        { cache := [], cache_fail := ["h"] } (normalize_url "http://h/x")).2.2 = false) ∧
    getParser (fun _ => none) { cache := [], cache_fail := [] } "http://h/x" =
      (none, { cache := [], cache_fail := ["h"] }, true) :=
  ⟨claim_c7_robots_allow_all.2.1 (fun _ => none) "UA"
      { cache := [], cache_fail := ["h"] } "http://h/x" (by decide) rfl,
   claim_c7_robots_allow_all.1 (fun _ => none)
      { cache := [], cache_fail := [] } "http://h/x" (by decide) rfl
      (by decide) rfl⟩

/-- C9 counterexample: with the lock released during the network load, the
schedule "t1 checks, t2 checks, t1 stores, t2 stores" makes both workers
fetch `robots.txt` for the same previously-unseen host: two loads are
issued, not one. -/
theorem claim_c9_counterexample :
    (runSched (fun _ => some ⟨fun _ _ => true, fun _ => none⟩) "http://h/a"
        initCState [true, false, true, false]).loads = 2 ∧
    (runSched (fun _ => some ⟨fun _ _ => true, fun _ => none⟩) "http://h/a"
        initCState [true, false, true, false]).t1 =
      .done (some ⟨fun _ _ => true, fun _ => none⟩) ∧
    (runSched (fun _ => some ⟨fun _ _ => true, fun _ => none⟩) "http://h/a"
        initCState [true, false, true, false]).t2 =
      .done (some ⟨fun _ _ => true, fun _ => none⟩) :=
  ⟨rfl, rfl, rfl⟩

/-- Helper: a step of thread 1 preserves the race invariant. -/
theorem raceInv_step_t1 (load : String → Option RParser) (u : String) (rp : RParser)
    (hn : netlocOf u ≠ "") (hl : load (robots_url_of u) = some rp)
    (s : CState) (hs : raceInv u rp s) :
    raceInv u rp (rstep load u s true) := by
  obtain ⟨hcache, hfail, hph1, hph2, hcnt, hone, hdone⟩ := hs
  rcases hph1 with h1 | h1 | h1
  · simp only [rstep, h1, phaseStep, if_neg hn]
    cases hc : List.lookup (netlocOf u) s.cache with
    | some rp2 =>
      dsimp only
      have hrp : rp2 = rp :=
        congrArg Prod.snd (hcache _ (mem_of_lookup_eq_some hc))
      subst hrp
      refine ⟨hcache, hfail, Or.inr (Or.inr rfl), hph2, ?_, ?_, ?_⟩
      · simp only [h1, phCnt] at hcnt ⊢
        omega
      · rcases hone with h | ⟨-, -, hce⟩
        · exact Or.inl h
        · rw [hce] at hc
          simp [List.lookup] at hc
      · intro _
        show s.cache ≠ []
        intro hce
        rw [hce] at hc
        simp [List.lookup] at hc
    | none =>
      have hnf : netlocOf u ∉ s.cache_fail := by
        rw [hfail]
        exact List.not_mem_nil _
      dsimp only
      rw [if_neg hnf, hl]
      dsimp only
      refine ⟨hcache, hfail, Or.inr (Or.inl rfl), hph2, ?_, ?_, ?_⟩
      · simp only [h1, phCnt] at hcnt ⊢
        omega
      · exact Or.inl (show 1 ≤ s.loads + 1 by omega)
      · rintro (⟨r, hr⟩ | hr2)
        · cases hr
        · exact hdone (Or.inr hr2)
  · simp only [rstep, h1, phaseStep]
    refine ⟨?_, hfail, Or.inr (Or.inr rfl), hph2, ?_, ?_, ?_⟩
    · intro e he
      rcases List.mem_cons.mp he with h | h
      · exact h
      · exact hcache _ h
    · simp only [h1, phCnt] at hcnt ⊢
      omega
    · rcases hone with h | ⟨hstart, -, -⟩
      · exact Or.inl h
      · rw [h1] at hstart
        cases hstart
    · intro _
      simp
  · simp only [rstep, h1, phaseStep]
    refine ⟨hcache, hfail, Or.inr (Or.inr rfl), hph2, ?_, ?_, ?_⟩
    · simp only [h1, phCnt] at hcnt ⊢
      omega
    · rcases hone with h | ⟨hstart, -, -⟩
      · exact Or.inl h
      · rw [h1] at hstart
        cases hstart
    · intro _
      exact hdone (Or.inl ⟨_, h1⟩)

/-- Helper: a step of thread 2 preserves the race invariant. -/
theorem raceInv_step_t2 (load : String → Option RParser) (u : String) (rp : RParser)
    (hn : netlocOf u ≠ "") (hl : load (robots_url_of u) = some rp)
    (s : CState) (hs : raceInv u rp s) :
    raceInv u rp (rstep load u s false) := by
  obtain ⟨hcache, hfail, hph1, hph2, hcnt, hone, hdone⟩ := hs
  rcases hph2 with h2 | h2 | h2
  · simp only [rstep, h2, phaseStep, if_neg hn]
    cases hc : List.lookup (netlocOf u) s.cache with
    | some rp2 =>
      dsimp only
      have hrp : rp2 = rp :=
        congrArg Prod.snd (hcache _ (mem_of_lookup_eq_some hc))
      subst hrp
      refine ⟨hcache, hfail, hph1, Or.inr (Or.inr rfl), ?_, ?_, ?_⟩
      · simp only [h2, phCnt] at hcnt ⊢
        omega
      · rcases hone with h | ⟨-, -, hce⟩
        · exact Or.inl h
        · rw [hce] at hc
          simp [List.lookup] at hc
      · intro _
        show s.cache ≠ []
        intro hce
        rw [hce] at hc
        simp [List.lookup] at hc
    | none =>
      have hnf : netlocOf u ∉ s.cache_fail := by
        rw [hfail]
        exact List.not_mem_nil _
      dsimp only
      rw [if_neg hnf, hl]
      dsimp only
      refine ⟨hcache, hfail, hph1, Or.inr (Or.inl rfl), ?_, ?_, ?_⟩
      · simp only [h2, phCnt] at hcnt ⊢
        omega
      · exact Or.inl (show 1 ≤ s.loads + 1 by omega)
      · rintro (hr1 | ⟨r, hr⟩)
        · exact hdone (Or.inl hr1)
        · cases hr
  · simp only [rstep, h2, phaseStep]
    refine ⟨?_, hfail, hph1, Or.inr (Or.inr rfl), ?_, ?_, ?_⟩
    · intro e he
      rcases List.mem_cons.mp he with h | h
      · exact h
      · exact hcache _ h
    · simp only [h2, phCnt] at hcnt ⊢
      omega
    · rcases hone with h | ⟨-, hstart, -⟩
      · exact Or.inl h
      · rw [h2] at hstart
        cases hstart
    · intro _
      simp
  · simp only [rstep, h2, phaseStep]
    refine ⟨hcache, hfail, hph1, Or.inr (Or.inr rfl), ?_, ?_, ?_⟩
    · simp only [h2, phCnt] at hcnt ⊢
      omega
    · rcases hone with h | ⟨-, hstart, -⟩
      · exact Or.inl h
      · rw [h2] at hstart
        cases hstart
    · intro _
      exact hdone (Or.inr ⟨_, h2⟩)

/-- Helper: the race invariant holds after any schedule. -/
theorem raceInv_run (load : String → Option RParser) (u : String) (rp : RParser)
    (hn : netlocOf u ≠ "") (hl : load (robots_url_of u) = some rp)
    (sched : List Bool) (s : CState) (hs : raceInv u rp s) :
    raceInv u rp (runSched load u s sched) := by
  induction sched generalizing s with
  | nil => exact hs
  | cons tid rest ih =>
    cases tid
    · exact ih _ (raceInv_step_t2 load u rp hn hl s hs)
    · exact ih _ (raceInv_step_t1 load u rp hn hl s hs)

/-- C9 amended: two workers racing through `_get_parser` for the same
previously-unseen host may each issue a `robots.txt` load (the lock is not
held across the network fetch), but under every schedule in which both
complete, each obtains the loaded policy, the cache holds it, and between
one and two loads were issued. -/
theorem claim_c9_robots_race (load : String → Option RParser) (u : String)
    (rp : RParser) (sched : List Bool) (r1 r2 : Option RParser)
    (hn : netlocOf u ≠ "") (hl : load (robots_url_of u) = some rp)
    (h1 : (runSched load u initCState sched).t1 = .done r1)
    (h2 : (runSched load u initCState sched).t2 = .done r2) :
    r1 = some rp ∧ r2 = some rp ∧
    List.lookup (netlocOf u) (runSched load u initCState sched).cache = some rp ∧
    1 ≤ (runSched load u initCState sched).loads ∧
    (runSched load u initCState sched).loads ≤ 2 := by
  have hinv : raceInv u rp (runSched load u initCState sched) :=
    raceInv_run load u rp hn hl sched initCState
      ⟨by simp [initCState], rfl, Or.inl rfl, Or.inl rfl, by simp [initCState, phCnt],
       Or.inr ⟨rfl, rfl, rfl⟩, by simp [initCState]⟩
  obtain ⟨hcache, _, hph1, hph2, hcnt, hone, hdone⟩ := hinv
  have hr1 : r1 = some rp := by
    rcases hph1 with h | h | h <;> rw [h1] at h
    · cases h
    · cases h
    · cases h
      rfl
  have hr2 : r2 = some rp := by
    rcases hph2 with h | h | h <;> rw [h2] at h
    · cases h
    · cases h
    · cases h
      rfl
  have hne : (runSched load u initCState sched).cache ≠ [] :=
    hdone (Or.inl ⟨r1, h1⟩)
  refine ⟨hr1, hr2, ?_, ?_, ?_⟩
  · cases hcc : (runSched load u initCState sched).cache with
    | nil => exact absurd hcc hne
    | cons e rest =>
      have he : e = (netlocOf u, rp) := hcache _ (by rw [hcc]; exact List.mem_cons_self _ _)
      rw [he]
      exact lookup_cons_self _ _ _
  · rcases hone with h | ⟨hs1, -, -⟩
    · exact h
    · rw [h1] at hs1
      cases hs1
  · have c1 : phCnt (runSched load u initCState sched).t1 = 1 := by
      rw [h1]
      rfl
    have c2 : phCnt (runSched load u initCState sched).t2 = 1 := by
      rw [h2]
      rfl
    omega

/-- Witness for C9 amended: the schedule where thread 1 finishes before
thread 2 starts issues exactly one load and thread 2 reuses the cached
policy. -/
theorem claim_c9_witness :
    ((some (⟨fun _ _ => true, fun _ => none⟩ : RParser) :
        Option RParser) = some ⟨fun _ _ => true, fun _ => none⟩) ∧
    List.lookup (netlocOf "http://h/a")
      (runSched (fun _ => some ⟨fun _ _ => true, fun _ => none⟩) "http://h/a"
        initCState [true, true, false, false]).cache =
      some ⟨fun _ _ => true, fun _ => none⟩ ∧
    1 ≤ (runSched (fun _ => some ⟨fun _ _ => true, fun _ => none⟩) "http://h/a"
        initCState [true, true, false, false]).loads ∧
    (runSched (fun _ => some ⟨fun _ _ => true, fun _ => none⟩) "http://h/a"
        initCState [true, true, false, false]).loads ≤ 2 := by
  have h := claim_c9_robots_race (fun _ => some ⟨fun _ _ => true, fun _ => none⟩)
    "http://h/a" ⟨fun _ _ => true, fun _ => none⟩ [true, true, false, false]
    (some ⟨fun _ _ => true, fun _ => none⟩) (some ⟨fun _ _ => true, fun _ => none⟩)
    (by decide) rfl rfl rfl
  exact ⟨h.1, h.2.2.1, h.2.2.2.1, h.2.2.2.2⟩

/-- Helper: the popped element is the head of the bucket. -/
theorem popBucket_fst (b : Buckets) (k : String) :
    (popBucket b k).1 = (bucketFind b k).head? := by
  induction b with
  | nil => simp [popBucket, bucketFind, List.lookup]
  | cons e rest ih =>
    obtain ⟨k2, ts⟩ := e
    by_cases hk : k2 = k
    · subst hk
      cases ts <;> simp [popBucket, bucketFind, lookup_cons_self]
    · simp only [popBucket, if_neg hk]
      rw [ih]
      unfold bucketFind
      rw [lookup_cons_ne _ _ _ _ (fun he => hk he.symm)]

/-- Helper: after the pop, the bucket holds its former tail. -/
theorem popBucket_self (b : Buckets) (k : String) :
    bucketFind (popBucket b k).2 k = (bucketFind b k).tail := by
  induction b with
  | nil => simp [popBucket, bucketFind, List.lookup]
  | cons e rest ih =>
    obtain ⟨k2, ts⟩ := e
    by_cases hk : k2 = k
    · subst hk
      cases ts <;> simp [popBucket, bucketFind, lookup_cons_self]
    · simp only [popBucket, if_neg hk]
      unfold bucketFind
      rw [lookup_cons_ne _ _ _ _ (fun he => hk he.symm),
        lookup_cons_ne _ _ _ _ (fun he => hk he.symm)]
      exact ih

/-- Helper: popping one key leaves every other bucket unchanged. -/
theorem popBucket_ne (b : Buckets) (k k2 : String) (h : k2 ≠ k) :
    bucketFind (popBucket b k).2 k2 = bucketFind b k2 := by
  induction b with
  | nil => simp [popBucket]
  | cons e rest ih =>
    obtain ⟨k3, ts⟩ := e
    by_cases hk : k3 = k
    · subst hk
      cases ts with
      | nil => simp [popBucket]
      | cons t ts2 =>
        simp only [popBucket, if_true]
        unfold bucketFind
        rw [lookup_cons_ne _ _ _ _ h, lookup_cons_ne _ _ _ _ h]
    · simp only [popBucket, if_neg hk]
      by_cases hk2 : k2 = k3
      · subst hk2
        unfold bucketFind
        rw [lookup_cons_self, lookup_cons_self]
      · unfold bucketFind
        rw [lookup_cons_ne _ _ _ _ hk2, lookup_cons_ne _ _ _ _ hk2]
        exact ih

/-- Helper: popping accounts exactly for the returned element. -/
theorem totalSize_popBucket (b : Buckets) (k : String) :
    totalSize (popBucket b k).2 + ((popBucket b k).1).toList.length = totalSize b := by
  induction b with
  | nil => simp [popBucket, totalSize]
  | cons e rest ih =>
    obtain ⟨k2, ts⟩ := e
    by_cases hk : k2 = k
    · subst hk
      cases ts <;> simp [popBucket, totalSize] <;> omega
    · simp only [popBucket, if_neg hk, totalSize, List.map_cons, List.sum_cons]
      simp only [totalSize] at ih
      omega

/-- Helper: a pop that returns nothing leaves the buckets untouched. -/
theorem popBucket_none (b : Buckets) (k : String)
    (h : (popBucket b k).1 = none) : (popBucket b k).2 = b := by
  induction b with
  | nil => simp [popBucket]
  | cons e rest ih =>
    obtain ⟨k2, ts⟩ := e
    by_cases hk : k2 = k
    · subst hk
      cases ts with
      | nil => simp [popBucket]
      | cons t ts2 => simp [popBucket] at h
    · simp only [popBucket, if_neg hk] at h ⊢
      rw [ih h]

/-- Helper: the head and tail of a list reassemble it. -/
theorem headOption_toList_append_tail (l : List SeedTask) :
    l.head?.toList ++ l.tail = l := by
  cases l <;> simp

/-- Helper: a round pops exactly the heads of the listed buckets, one per
non-empty bucket, in key order. -/
theorem popRound_fst (ks : List String) (b : Buckets) (hnd : ks.Nodup) :
    (popRound b ks).1 = ks.filterMap (fun k => (bucketFind b k).head?) := by
  induction ks generalizing b with
  | nil => simp [popRound]
  | cons k ks2 ih =>
    obtain ⟨hk, hnd2⟩ := List.nodup_cons.mp hnd
    simp only [popRound, List.filterMap_cons]
    rw [ih _ hnd2]
    have hrw : ks2.filterMap (fun k2 => (bucketFind (popBucket b k).2 k2).head?) =
        ks2.filterMap (fun k2 => (bucketFind b k2).head?) := by
      apply List.filterMap_congr
      intro k2 hk2
      rw [popBucket_ne _ _ _ (fun he => hk (by rw [← he]; exact hk2))]
    rw [hrw, popBucket_fst]
    cases (bucketFind b k).head? <;> simp

/-- Helper: size accounting across one round. -/
theorem popRound_size (ks : List String) (b : Buckets) :
    totalSize (popRound b ks).2.1 + (popRound b ks).1.length = totalSize b := by
  induction ks generalizing b with
  | nil => simp [popRound]
  | cons k ks2 ih =>
    simp only [popRound, List.length_append]
    have h1 := totalSize_popBucket b k
    have h2 := ih (popBucket b k).2
    omega

/-- Helper: buckets at keys outside the round are untouched. -/
theorem popRound_ne (ks : List String) (b : Buckets) (k2 : String) (h : k2 ∉ ks) :
    bucketFind (popRound b ks).2.1 k2 = bucketFind b k2 := by
  induction ks generalizing b with
  | nil => simp [popRound]
  | cons k ks2 ih =>
    simp only [popRound]
    rw [ih _ (fun hm => h (List.mem_cons_of_mem _ hm)),
      popBucket_ne _ _ _ (fun he => h (by rw [he]; exact List.mem_cons_self _ _))]

/-- Helper: a round that popped nothing leaves the buckets unchanged and
keeps no key. -/
theorem popRound_nil (ks : List String) (b : Buckets)
    (h : (popRound b ks).1 = []) :
    (popRound b ks).2.1 = b ∧ (popRound b ks).2.2 = [] := by
  induction ks generalizing b with
  | nil => simp [popRound]
  | cons k ks2 ih =>
    simp only [popRound, List.append_eq_nil] at h ⊢
    obtain ⟨h1, h2⟩ := h
    have hn : (popBucket b k).1 = none := by
      cases ho : (popBucket b k).1 <;> rw [ho] at h1 <;> simp_all
    have hb : (popBucket b k).2 = b := popBucket_none b k hn
    have hfind : bucketFind b k = [] := by
      have := popBucket_fst b k
      rw [hn] at this
      cases hf : bucketFind b k <;> rw [hf] at this <;> simp_all
    rw [hb] at h2 ⊢
    obtain ⟨ihb, ihnk⟩ := ih b h2
    refine ⟨ihb, ?_⟩
    rw [hfind]
    simp [ihnk]

/-- Helper: concatenating pointwise-equal buckets gives equal joins. -/
theorem joinAt_congr (ks : List String) (b1 b2 : Buckets)
    (h : ∀ k ∈ ks, bucketFind b1 k = bucketFind b2 k) :
    joinAt b1 ks = joinAt b2 ks := by
  unfold joinAt
  congr 1
  exact List.map_congr_left h

open List in
/-- Helper: one round plus the remaining buckets is a permutation of the
buckets before the round. -/
theorem popRound_perm (ks : List String) (b : Buckets) (hnd : ks.Nodup) :
    (popRound b ks).1 ++ joinAt (popRound b ks).2.1 ks ~ joinAt b ks := by
  induction ks generalizing b with
  | nil => simp [popRound, joinAt]
  | cons k ks2 ih =>
    obtain ⟨hk, hnd2⟩ := List.nodup_cons.mp hnd
    simp only [popRound, joinAt, List.map_cons, List.flatten_cons]
    have hbk : bucketFind (popRound (popBucket b k).2 ks2).2.1 k =
        (bucketFind b k).tail := by
      rw [popRound_ne _ _ _ hk, popBucket_self]
    rw [hbk]
    have hjoin : joinAt (popRound (popBucket b k).2 ks2).2.1 ks2 =
        (ks2.map (bucketFind (popRound (popBucket b k).2 ks2).2.1)).flatten := rfl
    have ihh := ih (popBucket b k).2 hnd2
    have hj2 : joinAt (popBucket b k).2 ks2 = joinAt b ks2 :=
      joinAt_congr _ _ _ (fun k2 hk2 => popBucket_ne _ _ _
        (fun he => hk (by rw [← he]; exact hk2)))
    rw [hj2] at ihh
    calc (popBucket b k).1.toList ++ (popRound (popBucket b k).2 ks2).1 ++
          ((bucketFind b k).tail ++
            (ks2.map (bucketFind (popRound (popBucket b k).2 ks2).2.1)).flatten)
        ~ (popBucket b k).1.toList ++ ((bucketFind b k).tail ++
            ((popRound (popBucket b k).2 ks2).1 ++
              (ks2.map (bucketFind (popRound (popBucket b k).2 ks2).2.1)).flatten)) := by
          simp only [List.append_assoc]
          exact (List.perm_append_comm_assoc _ _ _).append_left _
      _ ~ (popBucket b k).1.toList ++ ((bucketFind b k).tail ++ joinAt b ks2) := by
          exact (ihh.append_left _).append_left _
      _ = bucketFind b k ++ joinAt b ks2 := by
          rw [popBucket_fst, ← List.append_assoc, headOption_toList_append_tail]

/-- Helper: the next-round keys form a sublist of the round's keys. -/
theorem popRound_nk_sublist (ks : List String) (b : Buckets) :
    List.Sublist (popRound b ks).2.2 ks := by
  induction ks generalizing b with
  | nil => simp [popRound]
  | cons k ks2 ih =>
    simp only [popRound]
    by_cases hc : bucketFind (popBucket b k).2 k ≠ []
    · rw [if_pos hc]
      exact (ih (popBucket b k).2).cons₂ k
    · rw [if_neg hc]
      simp only [List.nil_append]
      exact (ih (popBucket b k).2).cons k

/-- Helper: a key of the round that is not kept has an empty bucket in the
final state of the round. -/
theorem popRound_nk_empty (ks : List String) (b : Buckets) (hnd : ks.Nodup) :
    ∀ k ∈ ks, k ∉ (popRound b ks).2.2 → bucketFind (popRound b ks).2.1 k = [] := by
  induction ks generalizing b with
  | nil => simp
  | cons k ks2 ih =>
    obtain ⟨hk, hnd2⟩ := List.nodup_cons.mp hnd
    intro k2 hk2 hnk
    simp only [popRound, List.mem_append, not_or] at hnk
    obtain ⟨hnk1, hnk2⟩ := hnk
    rcases List.mem_cons.mp hk2 with he | hm
    · subst he
      have hkeep : ¬ bucketFind (popBucket b k2).2 k2 ≠ [] := by
        intro hne
        exact hnk1 (by rw [if_pos hne]; exact List.mem_singleton.mpr rfl)
      push_neg at hkeep
      simp only [popRound]
      rw [popRound_ne _ _ _ hk]
      exact hkeep
    · simp only [popRound]
      exact ih (popBucket b k).2 hnd2 k2 hm hnk2

/-- Helper: dropping keys whose buckets are empty does not change the
concatenation. -/
theorem joinAt_sublist (b : Buckets) (nk ks : List String)
    (hsub : List.Sublist nk ks) (hnd : ks.Nodup)
    (hempty : ∀ k ∈ ks, k ∉ nk → bucketFind b k = []) :
    joinAt b ks = joinAt b nk := by
  induction hsub with
  | slnil => rfl
  | @cons l1 l2 a hsub ih =>
    have hnd2 := (List.nodup_cons.mp hnd).2
    have ha : a ∉ l1 := fun hmem =>
      (List.nodup_cons.mp hnd).1 (hsub.subset hmem)
    have hae : bucketFind b a = [] :=
      hempty a (List.mem_cons_self _ _) ha
    simp only [joinAt, List.map_cons, List.flatten_cons] at ih ⊢
    rw [hae, List.nil_append]
    exact ih hnd2 (fun k hm hnm => hempty k (List.mem_cons_of_mem _ hm) hnm)
  | @cons₂ l1 l2 a hsub ih =>
    have ⟨hna, hnd2⟩ := List.nodup_cons.mp hnd
    simp only [joinAt, List.map_cons, List.flatten_cons]
    congr 1
    exact ih hnd2 (fun k hm hnm =>
      hempty k (List.mem_cons_of_mem _ hm)
        (fun hcons => hnm (by
          rcases List.mem_cons.mp hcons with he | hm2
          · exact absurd (he ▸ hm) hna
          · exact hm2)))

open List in
/-- Helper: with enough fuel (one round more than the number of queued
tasks), the drain loop emits a permutation of the listed buckets. -/
theorem drainF_perm (fuel : Nat) (b : Buckets) (ks : List String)
    (hf : totalSize b < fuel) (hnd : ks.Nodup) :
    drainF fuel b ks ~ joinAt b ks := by
  induction fuel generalizing b ks with
  | zero => omega
  | succ f ih =>
    cases ks with
    | nil => simp [drainF, joinAt]
    | cons k ks2 =>
      simp only [drainF]
      by_cases hp : (popRound b (k :: ks2)).1 = []
      · obtain ⟨hb2, hnk⟩ := popRound_nil _ _ hp
        rw [hp, hnk]
        simp only [drainF, List.nil_append]
        have hempty : ∀ k2 ∈ k :: ks2, bucketFind b k2 = [] := by
          intro k2 hk2
          have h2 := popRound_nk_empty (k :: ks2) b hnd k2 hk2
            (by rw [hnk]; exact List.not_mem_nil _)
          rwa [hb2] at h2
        have hje : joinAt b (k :: ks2) = joinAt b [] :=
          joinAt_sublist b [] (k :: ks2) (List.nil_sublist _) hnd
            (fun k2 h2 _ => hempty k2 h2)
        rw [hje]
        exact Perm.refl _
      · have hsize := popRound_size (k :: ks2) b
        have hlen : 1 ≤ (popRound b (k :: ks2)).1.length := by
          cases hq : (popRound b (k :: ks2)).1 with
          | nil => exact absurd hq hp
          | cons a l => simp
        have hf2 : totalSize (popRound b (k :: ks2)).2.1 < f := by omega
        have hnd2 : (popRound b (k :: ks2)).2.2.Nodup :=
          hnd.sublist (popRound_nk_sublist (k :: ks2) b)
        have ihr := ih (popRound b (k :: ks2)).2.1 (popRound b (k :: ks2)).2.2 hf2 hnd2
        have hj : joinAt (popRound b (k :: ks2)).2.1 (k :: ks2) =
            joinAt (popRound b (k :: ks2)).2.1 (popRound b (k :: ks2)).2.2 :=
          joinAt_sublist _ _ _ (popRound_nk_sublist (k :: ks2) b) hnd
            (popRound_nk_empty (k :: ks2) b hnd)
        calc (popRound b (k :: ks2)).1 ++
              drainF f (popRound b (k :: ks2)).2.1 (popRound b (k :: ks2)).2.2
            ~ (popRound b (k :: ks2)).1 ++
              joinAt (popRound b (k :: ks2)).2.1 (popRound b (k :: ks2)).2.2 :=
              ihr.append_left _
          _ = (popRound b (k :: ks2)).1 ++
              joinAt (popRound b (k :: ks2)).2.1 (k :: ks2) := by rw [← hj]
          _ ~ joinAt b (k :: ks2) := popRound_perm (k :: ks2) b hnd

/-- Helper: appending a task to its bucket, seen through `bucketFind`. -/
theorem bucketFind_addToBucket (b : Buckets) (k : String) (t : SeedTask)
    (k2 : String) :
    bucketFind (addToBucket b k t) k2 =
      if k2 = k then bucketFind b k2 ++ [t] else bucketFind b k2 := by
  induction b with
  | nil =>
    by_cases hk : k2 = k
    · subst hk
      simp [addToBucket, bucketFind, lookup_cons_self, List.lookup]
    · simp only [addToBucket, if_neg hk]
      unfold bucketFind
      rw [lookup_cons_ne _ _ _ _ hk]
  | cons e rest ih =>
    obtain ⟨k3, ts⟩ := e
    by_cases hk3 : k3 = k
    · subst hk3
      simp only [addToBucket, if_true]
      by_cases hk : k2 = k3
      · subst hk
        unfold bucketFind
        rw [lookup_cons_self, lookup_cons_self, if_pos rfl]
        rfl
      · unfold bucketFind
        rw [lookup_cons_ne _ _ _ _ hk, lookup_cons_ne _ _ _ _ hk, if_neg hk]
    · simp only [addToBucket, if_neg hk3]
      by_cases hk : k2 = k3
      · subst hk
        unfold bucketFind
        rw [lookup_cons_self, lookup_cons_self, if_neg hk3]
      · unfold bucketFind
        rw [lookup_cons_ne _ _ _ _ hk, lookup_cons_ne _ _ _ _ hk]
        exact ih

/-- Helper: grouping keeps per-key record order. -/
theorem bucketFind_foldl (ts : List SeedTask) (b : Buckets) (k : String) :
    bucketFind (ts.foldl (fun b2 t => addToBucket b2 (netlocOf t.seed_url) t) b) k =
      bucketFind b k ++ ts.filter (fun t => netlocOf t.seed_url = k) := by
  induction ts generalizing b with
  | nil => simp
  | cons t ts2 ih =>
    simp only [List.foldl_cons, ih, bucketFind_addToBucket, List.filter_cons]
    by_cases hk : netlocOf t.seed_url = k
    · rw [if_pos hk.symm, if_pos (by simp [hk])]
      simp
    · rw [if_neg (fun he => hk he.symm), if_neg (by simp [hk])]

/-- Helper: the bucket of key `k` is exactly the tasks whose netloc is `k`,
in record order. -/
theorem bucketFind_buildBuckets (ts : List SeedTask) (k : String) :
    bucketFind (buildBuckets ts) k =
      ts.filter (fun t => netlocOf t.seed_url = k) := by
  unfold buildBuckets
  rw [bucketFind_foldl]
  simp [bucketFind, List.lookup]

/-- Helper: the key list after adding a task. -/
theorem keys_addToBucket (b : Buckets) (k : String) (t : SeedTask) :
    (addToBucket b k t).map Prod.fst =
      if k ∈ b.map Prod.fst then b.map Prod.fst else b.map Prod.fst ++ [k] := by
  induction b with
  | nil => simp [addToBucket]
  | cons e rest ih =>
    obtain ⟨k3, ts⟩ := e
    by_cases hk3 : k3 = k
    · subst hk3
      simp [addToBucket]
    · simp only [addToBucket, if_neg hk3, List.map_cons, ih, List.mem_cons]
      by_cases hm : k ∈ rest.map Prod.fst
      · rw [if_pos hm, if_pos (Or.inr hm)]
      · rw [if_neg hm, if_neg (by
          rintro (he | hm2)
          · exact hk3 he.symm
          · exact hm hm2)]
        simp

/-- Helper: grouping produces pairwise-distinct keys. -/
theorem keys_nodup_foldl (ts : List SeedTask) (b : Buckets)
    (hb : (b.map Prod.fst).Nodup) :
    ((ts.foldl (fun b2 t => addToBucket b2 (netlocOf t.seed_url) t) b).map
      Prod.fst).Nodup := by
  induction ts generalizing b with
  | nil => exact hb
  | cons t ts2 ih =>
    simp only [List.foldl_cons]
    apply ih
    rw [keys_addToBucket]
    by_cases hm : netlocOf t.seed_url ∈ b.map Prod.fst
    · rw [if_pos hm]
      exact hb
    · rw [if_neg hm]
      simp [List.nodup_append, hb, hm]

open List in
/-- Helper: adding a task permutes the flattened buckets by one append. -/
theorem flattenB_addToBucket (b : Buckets) (k : String) (t : SeedTask) :
    flattenB (addToBucket b k t) ~ flattenB b ++ [t] := by
  induction b with
  | nil => simp [addToBucket, flattenB]
  | cons e rest ih =>
    obtain ⟨k3, ts⟩ := e
    by_cases hk3 : k3 = k
    · subst hk3
      simp only [addToBucket, if_true, flattenB, List.map_cons, List.flatten_cons,
        List.append_assoc]
      exact (perm_append_comm).append_left ts
    · simp only [addToBucket, if_neg hk3, flattenB, List.map_cons, List.flatten_cons]
      calc ts ++ ((addToBucket rest k t).map Prod.snd).flatten
          ~ ts ++ ((rest.map Prod.snd).flatten ++ [t]) := ih.append_left ts
        _ = ts ++ (rest.map Prod.snd).flatten ++ [t] := by rw [List.append_assoc]

open List in
/-- Helper: the flattened buckets are a permutation of the input tasks. -/
theorem flattenB_buildBuckets (ts : List SeedTask) :
    flattenB (buildBuckets ts) ~ ts := by
  suffices h : ∀ (b : Buckets),
      flattenB (ts.foldl (fun b2 t => addToBucket b2 (netlocOf t.seed_url) t) b) ~
        flattenB b ++ ts by
    have h2 := h []
    simpa [flattenB] using h2
  induction ts with
  | nil => intro b; simp
  | cons t ts2 ih =>
    intro b
    simp only [List.foldl_cons]
    calc flattenB (ts2.foldl (fun b2 t => addToBucket b2 (netlocOf t.seed_url) t)
            (addToBucket b (netlocOf t.seed_url) t))
        ~ flattenB (addToBucket b (netlocOf t.seed_url) t) ++ ts2 := ih _
      _ ~ (flattenB b ++ [t]) ++ ts2 :=
          (flattenB_addToBucket b _ t).append_right ts2
      _ = flattenB b ++ t :: ts2 := by simp

/-- Helper: joining over the full (duplicate-free) key list recovers the
flattened buckets. -/
theorem joinAt_keys (b : Buckets) (hnd : (b.map Prod.fst).Nodup) :
    joinAt b (b.map Prod.fst) = flattenB b := by
  induction b with
  | nil => simp [joinAt, flattenB]
  | cons e rest ih =>
    obtain ⟨k, v⟩ := e
    have hnd3 : (k :: rest.map Prod.fst).Nodup := by simpa using hnd
    obtain ⟨hk, hnd2⟩ := List.nodup_cons.mp hnd3
    simp only [List.map_cons, joinAt, List.flatten_cons, flattenB]
    congr 1
    · unfold bucketFind
      rw [lookup_cons_self]
      rfl
    · have hcongr : (rest.map Prod.fst).map (bucketFind ((k, v) :: rest)) =
          (rest.map Prod.fst).map (bucketFind rest) := by
        apply List.map_congr_left
        intro k2 hk2
        unfold bucketFind
        rw [lookup_cons_ne _ _ _ _ (fun he => hk (by rw [← he]; exact hk2))]
      have := ih hnd2
      simp only [joinAt, flattenB] at this
      rw [← this]
      exact congrArg List.flatten hcongr

/-- Helper: joins split over key-list concatenation. -/
theorem joinAt_append (b : Buckets) (ks1 ks2 : List String) :
    joinAt b (ks1 ++ ks2) = joinAt b ks1 ++ joinAt b ks2 := by
  simp [joinAt]

open List in
/-- Helper: permuting the key list permutes the join. -/
theorem joinAt_perm (b : Buckets) {ks1 ks2 : List String} (h : ks1 ~ ks2) :
    joinAt b ks1 ~ joinAt b ks2 := by
  induction h with
  | nil => exact Perm.refl _
  | cons x h2 ih =>
    simp only [joinAt, List.map_cons, List.flatten_cons]
    exact ih.append_left _
  | swap x y l =>
    simp only [joinAt, List.map_cons, List.flatten_cons, ← List.append_assoc]
    exact (perm_append_comm).append_right _
  | trans h1 h2 ih1 ih2 => exact ih1.trans ih2

/-- Helper: a key outside the key list has no bucket. -/
theorem lookup_none_of_not_mem_keys (b : Buckets) (k : String)
    (h : k ∉ b.map Prod.fst) : List.lookup k b = none := by
  induction b with
  | nil => rfl
  | cons e rest ih =>
    obtain ⟨k2, v⟩ := e
    simp only [List.map_cons, List.mem_cons, not_or] at h
    rw [lookup_cons_ne _ _ _ _ h.1]
    exact ih h.2

/-- Helper: in a duplicate-free list, filtering for one contained value
yields exactly that value. -/
theorem filter_eq_of_nodup (l : List String) (x : String) (hnd : l.Nodup)
    (hm : x ∈ l) : l.filter (fun k => k = x) = [x] := by
  induction l with
  | nil => cases hm
  | cons a rest ih =>
    obtain ⟨ha, hnd2⟩ := List.nodup_cons.mp hnd
    rcases List.mem_cons.mp hm with he | hm2
    · subst he
      rw [List.filter_cons_of_pos (by simp)]
      rw [List.filter_eq_nil_iff.mpr (fun k hk => by
        simp only [decide_eq_true_eq]
        intro he2
        exact ha (he2 ▸ hk))]
    · have hax : a ≠ x := fun he => ha (he ▸ hm2)
      rw [List.filter_cons_of_neg (by simpa using hax)]
      exact ih hnd2 hm2

/-- Helper: the hostless bucket equals the join over the `""` keys. -/
theorem bucketFind_empty_join (b : Buckets) (hnd : (b.map Prod.fst).Nodup) :
    bucketFind b "" = joinAt b ((b.map Prod.fst).filter (fun k => k = "")) := by
  by_cases hm : "" ∈ b.map Prod.fst
  · rw [filter_eq_of_nodup _ _ hnd hm]
    simp [joinAt]
  · rw [List.filter_eq_nil_iff.mpr (fun k hk => by
      simp only [decide_eq_true_eq]
      intro he
      exact hm (he ▸ hk))]
    unfold bucketFind
    rw [lookup_none_of_not_mem_keys _ _ hm]
    simp [joinAt]

open List in
/-- C8: `round_robin_by_netloc` returns a permutation of its input; the
output is the host-interleaved part followed by exactly the hostless tasks
in input order; every task before the tail has a host; and each round emits
the head of each non-empty host group, one per group, in key order. -/
theorem claim_c8_round_robin_by_netloc (tasks : List SeedTask) :
    round_robin_by_netloc tasks ~ tasks ∧
    round_robin_by_netloc tasks =
      hostedPart tasks ++ tasks.filter (fun t => netlocOf t.seed_url = "") ∧
    (∀ t ∈ hostedPart tasks, netlocOf t.seed_url ≠ "") ∧
    (∀ (b : Buckets) (ks : List String), ks.Nodup →
      (popRound b ks).1 = ks.filterMap (fun k => (bucketFind b k).head?)) := by
  have hnodup : ((buildBuckets tasks).map Prod.fst).Nodup :=
    keys_nodup_foldl tasks [] (by simp)
  have hkeys_nodup : (rrKeys (buildBuckets tasks)).Nodup := hnodup.filter _
  have hhp : hostedPart tasks ~
      joinAt (buildBuckets tasks) (rrKeys (buildBuckets tasks)) :=
    drainF_perm _ _ _ (Nat.lt_succ_self _) hkeys_nodup
  refine ⟨?_, ?_, ?_, fun b ks hnd => popRound_fst ks b hnd⟩
  · show hostedPart tasks ++ bucketFind (buildBuckets tasks) "" ~ tasks
    have hsplit : rrKeys (buildBuckets tasks) ++
        ((buildBuckets tasks).map Prod.fst).filter (fun k => k = "") ~
        (buildBuckets tasks).map Prod.fst := by
      have hc : ((buildBuckets tasks).map Prod.fst).filter
            (fun k => !(decide (k ≠ ""))) =
          ((buildBuckets tasks).map Prod.fst).filter (fun k => k = "") := by
        apply List.filter_congr
        intro k hk
        by_cases hke : k = "" <;> simp [hke]
      have := List.filter_append_perm (fun k => decide (k ≠ ""))
        ((buildBuckets tasks).map Prod.fst)
      rw [hc] at this
      exact this
    calc hostedPart tasks ++ bucketFind (buildBuckets tasks) ""
        ~ joinAt (buildBuckets tasks) (rrKeys (buildBuckets tasks)) ++
            bucketFind (buildBuckets tasks) "" := hhp.append_right _
      _ = joinAt (buildBuckets tasks) (rrKeys (buildBuckets tasks)) ++
            joinAt (buildBuckets tasks)
              (((buildBuckets tasks).map Prod.fst).filter (fun k => k = "")) := by
          rw [← bucketFind_empty_join _ hnodup]
      _ = joinAt (buildBuckets tasks) (rrKeys (buildBuckets tasks) ++
            ((buildBuckets tasks).map Prod.fst).filter (fun k => k = "")) := by
          rw [joinAt_append]
      _ ~ joinAt (buildBuckets tasks) ((buildBuckets tasks).map Prod.fst) :=
          joinAt_perm _ hsplit
      _ = flattenB (buildBuckets tasks) := joinAt_keys _ hnodup
      _ ~ tasks := flattenB_buildBuckets tasks
  · show hostedPart tasks ++ bucketFind (buildBuckets tasks) "" = _
    rw [bucketFind_buildBuckets]
  · intro t ht
    have hmem : t ∈ joinAt (buildBuckets tasks) (rrKeys (buildBuckets tasks)) :=
      hhp.mem_iff.mp ht
    simp only [joinAt, List.mem_flatten, List.mem_map] at hmem
    obtain ⟨l, ⟨k, hk, hlk⟩, htl⟩ := hmem
    rw [← hlk, bucketFind_buildBuckets] at htl
    have hnet : netlocOf t.seed_url = k := by
      have := List.of_mem_filter htl
      simpa using this
    have hkne : k ≠ "" := by
      have := (List.mem_filter.mp hk).2
      simpa using this
    rw [hnet]
    exact hkne

/-- Witness for C8's round structure at concrete buckets: from buckets
`a ↦ [t1, t2]`, `b ↦ []`, `c ↦ [t3]` a round pops `t1` then `t3`. -/
theorem claim_c8_witness :
    (["a", "b", "c"] : List String).Nodup ∧
    (popRound [("a", [⟨"p", "c", "m", "http://a/1"⟩, ⟨"p", "c", "m", "http://a/2"⟩]),
        ("b", []), ("c", [⟨"p", "c", "m", "http://c/1"⟩])] ["a", "b", "c"]).1 =
      ["a", "b", "c"].filterMap (fun k =>
        (bucketFind [("a", [⟨"p", "c", "m", "http://a/1"⟩, ⟨"p", "c", "m", "http://a/2"⟩]),
          ("b", []), ("c", [⟨"p", "c", "m", "http://c/1"⟩])] k).head?) :=
  ⟨by decide,
   (claim_c8_round_robin_by_netloc []).2.2.2
     [("a", [⟨"p", "c", "m", "http://a/1"⟩, ⟨"p", "c", "m", "http://a/2"⟩]),
       ("b", []), ("c", [⟨"p", "c", "m", "http://c/1"⟩])] ["a", "b", "c"] (by decide)⟩

/-- Helper: the loop stops when the FIFO drains. -/
theorem crawl_loop_nil (env : CrawlEnv) (st : CrawlState) :
    crawl_loop env [] st = st := by
  rw [crawl_loop]

/-- Helper: the loop stops when the page counter has reached `max_pages`,
whatever is still queued. -/
theorem crawl_loop_stop (env : CrawlEnv) (u : String) (d : Nat)
    (rest : List (String × Nat)) (st : CrawlState)
    (h : ¬ st.pages_fetched < env.cfg.max_pages) :
    crawl_loop env ((u, d) :: rest) st = st := by
  rw [crawl_loop]
  rw [dif_neg h]

/-- Helper: an already-visited URL is popped and skipped. -/
theorem crawl_loop_visited (env : CrawlEnv) (u : String) (d : Nat)
    (rest : List (String × Nat)) (st : CrawlState)
    (hpf : st.pages_fetched < env.cfg.max_pages)
    (hvis : normalize_url u ∈ st.visited) :
    crawl_loop env ((u, d) :: rest) st = crawl_loop env rest st := by
  rw [crawl_loop]
  rw [dif_pos hpf]
  dsimp only
  rw [if_pos hvis]

/-- Helper: the same-domain scope filter skips the URL. -/
theorem crawl_loop_domain_skip (env : CrawlEnv) (u : String) (d : Nat)
    (rest : List (String × Nat)) (st : CrawlState)
    (hpf : st.pages_fetched < env.cfg.max_pages)
    (hvis : normalize_url u ∉ st.visited)
    (hdom : env.cfg.same_domain_only = true ∧ netlocOf (normalize_url u) ≠ "" ∧
      netlocOf (normalize_url u) ≠ env.base_netloc) :
    crawl_loop env ((u, d) :: rest) st =
      crawl_loop env rest { st with visited := normalize_url u :: st.visited } := by
  rw [crawl_loop]
  rw [dif_pos hpf]
  dsimp only
  rw [if_neg hvis, if_pos hdom]

/-- Helper: the same-path-prefix scope filter skips the URL. -/
theorem crawl_loop_path_skip (env : CrawlEnv) (u : String) (d : Nat)
    (rest : List (String × Nat)) (st : CrawlState)
    (hpf : st.pages_fetched < env.cfg.max_pages)
    (hvis : normalize_url u ∉ st.visited)
    (hdom : ¬ (env.cfg.same_domain_only = true ∧ netlocOf (normalize_url u) ≠ "" ∧
      netlocOf (normalize_url u) ≠ env.base_netloc))
    (hpath : env.cfg.same_path_prefix_only = true ∧ urlPath (normalize_url u) ≠ "" ∧
      ¬ strStartsWith (urlPath (normalize_url u)) env.base_pref = true ∧
      urlPath (normalize_url u) ≠ env.base_path) :
    crawl_loop env ((u, d) :: rest) st =
      crawl_loop env rest { st with visited := normalize_url u :: st.visited } := by
  rw [crawl_loop]
  rw [dif_pos hpf]
  dsimp only
  rw [if_neg hvis, if_neg hdom, if_pos hpath]

/-- Helper: a robots disallow journals the event and skips the URL. -/
theorem crawl_loop_robots_skip (env : CrawlEnv) (u : String) (d : Nat)
    (rest : List (String × Nat)) (st : CrawlState)
    (hpf : st.pages_fetched < env.cfg.max_pages)
    (hvis : normalize_url u ∉ st.visited)
    (hdom : ¬ (env.cfg.same_domain_only = true ∧ netlocOf (normalize_url u) ≠ "" ∧
      netlocOf (normalize_url u) ≠ env.base_netloc))
    (hpath : ¬ (env.cfg.same_path_prefix_only = true ∧ urlPath (normalize_url u) ≠ "" ∧
      ¬ strStartsWith (urlPath (normalize_url u)) env.base_pref = true ∧
      urlPath (normalize_url u) ≠ env.base_path))
    (hrob : env.cfg.respect_robots = true ∧ ¬ env.can_fetch (normalize_url u) = true) :
    crawl_loop env ((u, d) :: rest) st =
      crawl_loop env rest
        { st with
            visited := normalize_url u :: st.visited,
            events := st.events ++ [.robots_disallow (normalize_url u)] } := by
  rw [crawl_loop]
  rw [dif_pos hpf]
  dsimp only
  rw [if_neg hvis, if_neg hdom, if_neg hpath, if_pos hrob]

/-- Helper: a URL passing the visited / scope / robots filters whose fetch
raises `HTTPError` journals a classified `fetch_error` and is skipped: the
run continues on the rest of the queue with the URL marked visited, the
event appended, and every other component — the page counter included —
unchanged. -/
theorem crawl_loop_fetch_error (env : CrawlEnv) (u : String) (d : Nat)
    (rest : List (String × Nat)) (st : CrawlState) (code : Nat)
    (hpf : st.pages_fetched < env.cfg.max_pages)
    (hvis : normalize_url u ∉ st.visited)
    (hdom : ¬ (env.cfg.same_domain_only = true ∧ netlocOf (normalize_url u) ≠ "" ∧
      netlocOf (normalize_url u) ≠ env.base_netloc))
    (hpath : ¬ (env.cfg.same_path_prefix_only = true ∧ urlPath (normalize_url u) ≠ "" ∧
      ¬ strStartsWith (urlPath (normalize_url u)) env.base_pref = true ∧
      urlPath (normalize_url u) ≠ env.base_path))
    (hrob : ¬ (env.cfg.respect_robots = true ∧ ¬ env.can_fetch (normalize_url u) = true))
    (hnet : env.net (normalize_url u) = .httpError code) :
    crawl_loop env ((u, d) :: rest) st =
      crawl_loop env rest
        { st with
            visited := normalize_url u :: st.visited,
            events := st.events ++
              [.fetch_error (normalize_url u) (errRepr (.httpError code))] } := by
  rw [crawl_loop]
  rw [dif_pos hpf]
  dsimp only
  rw [if_neg hvis, if_neg hdom, if_neg hpath, if_neg hrob, hnet]

/-- Helper: same as `crawl_loop_fetch_error` for `URLError`. -/
theorem crawl_loop_url_error (env : CrawlEnv) (u : String) (d : Nat)
    (rest : List (String × Nat)) (st : CrawlState) (reason : String)
    (hpf : st.pages_fetched < env.cfg.max_pages)
    (hvis : normalize_url u ∉ st.visited)
    (hdom : ¬ (env.cfg.same_domain_only = true ∧ netlocOf (normalize_url u) ≠ "" ∧
      netlocOf (normalize_url u) ≠ env.base_netloc))
    (hpath : ¬ (env.cfg.same_path_prefix_only = true ∧ urlPath (normalize_url u) ≠ "" ∧
      ¬ strStartsWith (urlPath (normalize_url u)) env.base_pref = true ∧
      urlPath (normalize_url u) ≠ env.base_path))
    (hrob : ¬ (env.cfg.respect_robots = true ∧ ¬ env.can_fetch (normalize_url u) = true))
    (hnet : env.net (normalize_url u) = .urlError reason) :
    crawl_loop env ((u, d) :: rest) st =
      crawl_loop env rest
        { st with
            visited := normalize_url u :: st.visited,
            events := st.events ++
              [.fetch_error (normalize_url u) (errRepr (.urlError reason))] } := by
  rw [crawl_loop]
  rw [dif_pos hpf]
  dsimp only
  rw [if_neg hvis, if_neg hdom, if_neg hpath, if_neg hrob, hnet]

/-- Helper: same as `crawl_loop_fetch_error` for any other exception. -/
theorem crawl_loop_exn_error (env : CrawlEnv) (u : String) (d : Nat)
    (rest : List (String × Nat)) (st : CrawlState) (msg : String)
    (hpf : st.pages_fetched < env.cfg.max_pages)
    (hvis : normalize_url u ∉ st.visited)
    (hdom : ¬ (env.cfg.same_domain_only = true ∧ netlocOf (normalize_url u) ≠ "" ∧
      netlocOf (normalize_url u) ≠ env.base_netloc))
    (hpath : ¬ (env.cfg.same_path_prefix_only = true ∧ urlPath (normalize_url u) ≠ "" ∧
      ¬ strStartsWith (urlPath (normalize_url u)) env.base_pref = true ∧
      urlPath (normalize_url u) ≠ env.base_path))
    (hrob : ¬ (env.cfg.respect_robots = true ∧ ¬ env.can_fetch (normalize_url u) = true))
    (hnet : env.net (normalize_url u) = .exn msg) :
    crawl_loop env ((u, d) :: rest) st =
      crawl_loop env rest
        { st with
            visited := normalize_url u :: st.visited,
            events := st.events ++
              [.fetch_error (normalize_url u) (errRepr (.exn msg))] } := by
  rw [crawl_loop]
  rw [dif_pos hpf]
  dsimp only
  rw [if_neg hvis, if_neg hdom, if_neg hpath, if_neg hrob, hnet]

/-- Helper: a successful fetch of a binary response increments the page
counter (and appends the URL to the fetch log), handles the direct hit, and
continues on the rest of the queue. -/
theorem crawl_loop_ok_binary (env : CrawlEnv) (u : String) (d : Nat)
    (rest : List (String × Nat)) (st : CrawlState) (r : FetchOk)
    (hpf : st.pages_fetched < env.cfg.max_pages)
    (hvis : normalize_url u ∉ st.visited)
    (hdom : ¬ (env.cfg.same_domain_only = true ∧ netlocOf (normalize_url u) ≠ "" ∧
      netlocOf (normalize_url u) ≠ env.base_netloc))
    (hpath : ¬ (env.cfg.same_path_prefix_only = true ∧ urlPath (normalize_url u) ≠ "" ∧
      ¬ strStartsWith (urlPath (normalize_url u)) env.base_pref = true ∧
      urlPath (normalize_url u) ≠ env.base_path))
    (hrob : ¬ (env.cfg.respect_robots = true ∧ ¬ env.can_fetch (normalize_url u) = true))
    (hnet : env.net (normalize_url u) = .ok r)
    (hbin : is_probably_binary (strLower r.content_type) = true) :
    crawl_loop env ((u, d) :: rest) st =
      crawl_loop env rest
        { binary_hit_state env (normalize_url u)
            { st with visited := normalize_url u :: st.visited } r with
            pages_fetched := st.pages_fetched + 1,
            fetched_log := st.fetched_log ++ [normalize_url u] } := by
  rw [crawl_loop]
  rw [dif_pos hpf]
  dsimp only
  rw [if_neg hvis, if_neg hdom, if_neg hpath, if_neg hrob, hnet]
  dsimp only
  rw [if_pos hbin]

/-- Helper: a successful fetch of an HTML page whose link extraction raises
(`links = none`) increments the page counter, saves the page when enabled,
and continues on the rest of the queue. -/
theorem crawl_loop_ok_html_none (env : CrawlEnv) (u : String) (d : Nat)
    (rest : List (String × Nat)) (st : CrawlState) (r : FetchOk)
    (hpf : st.pages_fetched < env.cfg.max_pages)
    (hvis : normalize_url u ∉ st.visited)
    (hdom : ¬ (env.cfg.same_domain_only = true ∧ netlocOf (normalize_url u) ≠ "" ∧
      netlocOf (normalize_url u) ≠ env.base_netloc))
    (hpath : ¬ (env.cfg.same_path_prefix_only = true ∧ urlPath (normalize_url u) ≠ "" ∧
      ¬ strStartsWith (urlPath (normalize_url u)) env.base_pref = true ∧
      urlPath (normalize_url u) ≠ env.base_path))
    (hrob : ¬ (env.cfg.respect_robots = true ∧ ¬ env.can_fetch (normalize_url u) = true))
    (hnet : env.net (normalize_url u) = .ok r)
    (hbin : ¬ is_probably_binary (strLower r.content_type) = true)
    (hlinks : r.links = none) :
    crawl_loop env ((u, d) :: rest) st =
      crawl_loop env rest
        { (if env.save_pages then
            save_page_state env (normalize_url r.final_url) r.content_type
              { st with visited := normalize_url u :: st.visited }
          else { st with visited := normalize_url u :: st.visited }) with
            pages_fetched := st.pages_fetched + 1,
            fetched_log := st.fetched_log ++ [normalize_url u] } := by
  rw [crawl_loop]
  rw [dif_pos hpf]
  dsimp only
  rw [if_neg hvis, if_neg hdom, if_neg hpath, if_neg hrob, hnet]
  dsimp only
  rw [if_neg hbin, hlinks]

/-- Helper: a successful fetch of an HTML page with extracted links
increments the page counter, saves the page when enabled, processes the
links, and continues on the rest of the queue extended by the enqueued
links. -/
theorem crawl_loop_ok_html_links (env : CrawlEnv) (u : String) (d : Nat)
    (rest : List (String × Nat)) (st : CrawlState) (r : FetchOk)
    (links : List (String × String))
    (hpf : st.pages_fetched < env.cfg.max_pages)
    (hvis : normalize_url u ∉ st.visited)
    (hdom : ¬ (env.cfg.same_domain_only = true ∧ netlocOf (normalize_url u) ≠ "" ∧
      netlocOf (normalize_url u) ≠ env.base_netloc))
    (hpath : ¬ (env.cfg.same_path_prefix_only = true ∧ urlPath (normalize_url u) ≠ "" ∧
      ¬ strStartsWith (urlPath (normalize_url u)) env.base_pref = true ∧
      urlPath (normalize_url u) ≠ env.base_path))
    (hrob : ¬ (env.cfg.respect_robots = true ∧ ¬ env.can_fetch (normalize_url u) = true))
    (hnet : env.net (normalize_url u) = .ok r)
    (hbin : ¬ is_probably_binary (strLower r.content_type) = true)
    (hlinks : r.links = some links) :
    crawl_loop env ((u, d) :: rest) st =
      crawl_loop env
        (rest ++ (processLinks env d (normalize_url r.final_url)
          (if env.save_pages then
            save_page_state env (normalize_url r.final_url) r.content_type
              { st with visited := normalize_url u :: st.visited }
          else { st with visited := normalize_url u :: st.visited }) links).pushed)
        { (processLinks env d (normalize_url r.final_url)
            (if env.save_pages then
              save_page_state env (normalize_url r.final_url) r.content_type
                { st with visited := normalize_url u :: st.visited }
            else { st with visited := normalize_url u :: st.visited }) links).st with
            pages_fetched := st.pages_fetched + 1,
            fetched_log := st.fetched_log ++ [normalize_url u] } := by
  rw [crawl_loop]
  rw [dif_pos hpf]
  dsimp only
  rw [if_neg hvis, if_neg hdom, if_neg hpath, if_neg hrob, hnet]
  dsimp only
  rw [if_neg hbin, hlinks]

/-- Helper: a stopped loop (page counter at or past `max_pages`) returns its
state unchanged, whatever is still queued. -/
theorem crawl_loop_stopped (env : CrawlEnv) (st : CrawlState)
    (h : ¬ st.pages_fetched < env.cfg.max_pages) :
    ∀ q, crawl_loop env q st = st := by
  intro q
  match q with
  | [] => exact crawl_loop_nil env st
  | (u, d) :: rest => exact crawl_loop_stop env u d rest st h

/-- Helper: along any run of the BFS loop the page counter counts exactly
the successfully fetched URLs (the ghost journal `fetched_log`), and it
never exceeds `max_pages` (nor its initial value, if that was larger). -/
theorem crawl_loop_counter (env : CrawlEnv) (q : List (String × Nat)) (st : CrawlState) :
    (st.pages_fetched = st.fetched_log.length →
      (crawl_loop env q st).pages_fetched = (crawl_loop env q st).fetched_log.length) ∧
    (crawl_loop env q st).pages_fetched ≤ max st.pages_fetched env.cfg.max_pages := by
  induction q, st using crawl_loop.induct env with
  | case1 st =>
    rw [crawl_loop_nil]
    exact ⟨fun h => h, le_max_left _ _⟩
  | case2 st url0 depth rest hpf url hvis ih =>
    rw [crawl_loop_visited env url0 depth rest st hpf hvis]
    exact ih
  | case3 st url0 depth rest hpf url hvis st1 hdom ih =>
    rw [crawl_loop_domain_skip env url0 depth rest st hpf hvis hdom]
    exact ih
  | case4 st url0 depth rest hpf url hvis st1 hdom hpath ih =>
    rw [crawl_loop_path_skip env url0 depth rest st hpf hvis hdom hpath]
    exact ih
  | case5 st url0 depth rest hpf url hvis st1 hdom hpath hrob ih =>
    rw [crawl_loop_robots_skip env url0 depth rest st hpf hvis hdom hpath hrob]
    exact ih
  | case6 st url0 depth rest hpf url hvis st1 hdom hpath hrob code hnet ih =>
    rw [crawl_loop_fetch_error env url0 depth rest st code hpf hvis hdom hpath hrob hnet]
    exact ih
  | case7 st url0 depth rest hpf url hvis st1 hdom hpath hrob reason hnet ih =>
    rw [crawl_loop_url_error env url0 depth rest st reason hpf hvis hdom hpath hrob hnet]
    exact ih
  | case8 st url0 depth rest hpf url hvis st1 hdom hpath hrob msg hnet ih =>
    rw [crawl_loop_exn_error env url0 depth rest st msg hpf hvis hdom hpath hrob hnet]
    exact ih
  | case9 st url0 depth rest hpf url hvis st1 hdom hpath hrob r hnet ct hbin ih =>
    rw [crawl_loop_ok_binary env url0 depth rest st r hpf hvis hdom hpath hrob hnet hbin]
    refine ⟨fun h => ih.1 ?_, ?_⟩
    · show st.pages_fetched + 1 = (st.fetched_log ++ [normalize_url url0]).length
      simp [h]
    · refine le_trans ih.2 ?_
      show max (st.pages_fetched + 1) env.cfg.max_pages ≤
        max st.pages_fetched env.cfg.max_pages
      rw [Nat.max_eq_right hpf]
      exact le_max_right _ _
  | case10 st url0 depth rest hpf url hvis st1 hdom hpath hrob r hnet fpu ct hbin st2 hlinks ih =>
    rw [crawl_loop_ok_html_none env url0 depth rest st r hpf hvis hdom hpath hrob hnet
      hbin hlinks]
    refine ⟨fun h => ih.1 ?_, ?_⟩
    · show st.pages_fetched + 1 = (st.fetched_log ++ [normalize_url url0]).length
      simp [h]
    · refine le_trans ih.2 ?_
      show max (st.pages_fetched + 1) env.cfg.max_pages ≤
        max st.pages_fetched env.cfg.max_pages
      rw [Nat.max_eq_right hpf]
      exact le_max_right _ _
  | case11 st url0 depth rest hpf url hvis st1 hdom hpath hrob r hnet fpu ct hbin st2 links hlinks so ih =>
    rw [crawl_loop_ok_html_links env url0 depth rest st r links hpf hvis hdom hpath hrob
      hnet hbin hlinks]
    refine ⟨fun h => ih.1 ?_, ?_⟩
    · show st.pages_fetched + 1 = (st.fetched_log ++ [normalize_url url0]).length
      simp [h]
    · refine le_trans ih.2 ?_
      show max (st.pages_fetched + 1) env.cfg.max_pages ≤
        max st.pages_fetched env.cfg.max_pages
      rw [Nat.max_eq_right hpf]
      exact le_max_right _ _
  | case12 st url0 depth rest hpf =>
    rw [crawl_loop_stop env url0 depth rest st hpf]
    exact ⟨fun h => h, le_max_left _ _⟩

/-- Helper: a URL passing the filters whose fetch succeeds advances the
loop to some state with the page counter incremented by one, pushing some
(possibly empty) block of links behind the remaining queue — uniformly in
the remaining queue. -/
theorem crawl_loop_ok_succ (env : CrawlEnv) (u : String) (d : Nat) (st : CrawlState)
    (r : FetchOk)
    (hpf : st.pages_fetched < env.cfg.max_pages)
    (hvis : normalize_url u ∉ st.visited)
    (hdom : ¬ (env.cfg.same_domain_only = true ∧ netlocOf (normalize_url u) ≠ "" ∧
      netlocOf (normalize_url u) ≠ env.base_netloc))
    (hpath : ¬ (env.cfg.same_path_prefix_only = true ∧ urlPath (normalize_url u) ≠ "" ∧
      ¬ strStartsWith (urlPath (normalize_url u)) env.base_pref = true ∧
      urlPath (normalize_url u) ≠ env.base_path))
    (hrob : ¬ (env.cfg.respect_robots = true ∧ ¬ env.can_fetch (normalize_url u) = true))
    (hnet : env.net (normalize_url u) = .ok r) :
    ∃ (push : List (String × Nat)) (st2 : CrawlState),
      st2.pages_fetched = st.pages_fetched + 1 ∧
      ∀ rest, crawl_loop env ((u, d) :: rest) st = crawl_loop env (rest ++ push) st2 := by
  by_cases hbin : is_probably_binary (strLower r.content_type) = true
  · exact ⟨[],
      { binary_hit_state env (normalize_url u)
          { st with visited := normalize_url u :: st.visited } r with
          pages_fetched := st.pages_fetched + 1,
          fetched_log := st.fetched_log ++ [normalize_url u] }, rfl,
      fun rest => by
        rw [crawl_loop_ok_binary env u d rest st r hpf hvis hdom hpath hrob hnet hbin,
          List.append_nil]⟩
  · match hl : r.links with
    | none =>
      exact ⟨[],
        { (if env.save_pages then
            save_page_state env (normalize_url r.final_url) r.content_type
              { st with visited := normalize_url u :: st.visited }
          else { st with visited := normalize_url u :: st.visited }) with
            pages_fetched := st.pages_fetched + 1,
            fetched_log := st.fetched_log ++ [normalize_url u] }, rfl,
        fun rest => by
          rw [crawl_loop_ok_html_none env u d rest st r hpf hvis hdom hpath hrob hnet
            hbin hl, List.append_nil]⟩
    | some links =>
      exact ⟨(processLinks env d (normalize_url r.final_url)
          (if env.save_pages then
            save_page_state env (normalize_url r.final_url) r.content_type
              { st with visited := normalize_url u :: st.visited }
          else { st with visited := normalize_url u :: st.visited }) links).pushed,
        { (processLinks env d (normalize_url r.final_url)
            (if env.save_pages then
              save_page_state env (normalize_url r.final_url) r.content_type
                { st with visited := normalize_url u :: st.visited }
            else { st with visited := normalize_url u :: st.visited }) links).st with
            pages_fetched := st.pages_fetched + 1,
            fetched_log := st.fetched_log ++ [normalize_url u] }, rfl,
        fun rest => by
          rw [crawl_loop_ok_html_links env u d rest st r links hpf hvis hdom hpath hrob
            hnet hbin hl]⟩

/-- C5: In the per-seed BFS loop, the page counter counts exactly the
successfully fetched pages (each dequeued URL reaching the fetch step whose
fetch succeeds increments it by one, as recorded by the ghost journal
`fetched_log`), and it never exceeds `max_pages`; on an HTTP, URL, or
generic fetch error a classified `fetch_error` event is journaled and the
URL is skipped with the counter unchanged; the loop stops when the FIFO
drains or the page counter reaches `max_pages`; and with `max_pages = 1`
exactly one page is fetched per seed even if the FIFO has more entries. -/
theorem claim_c5_bfs_fetch_loop :
    (∀ (env : CrawlEnv) (st : CrawlState), crawl_loop env [] st = st) ∧
    (∀ (env : CrawlEnv) (q : List (String × Nat)) (st : CrawlState),
      ¬ st.pages_fetched < env.cfg.max_pages → crawl_loop env q st = st) ∧
    (∀ (env : CrawlEnv) (q : List (String × Nat)) (st : CrawlState),
      st.pages_fetched = st.fetched_log.length →
      (crawl_loop env q st).pages_fetched = (crawl_loop env q st).fetched_log.length) ∧
    (∀ (env : CrawlEnv) (q : List (String × Nat)) (st : CrawlState),
      (crawl_loop env q st).pages_fetched ≤ max st.pages_fetched env.cfg.max_pages) ∧
    (∀ (env : CrawlEnv) (u : String) (d : Nat) (rest : List (String × Nat))
        (st : CrawlState) (e : FetchOutcome),
      st.pages_fetched < env.cfg.max_pages →
      normalize_url u ∉ st.visited →
      ¬ (env.cfg.same_domain_only = true ∧ netlocOf (normalize_url u) ≠ "" ∧
        netlocOf (normalize_url u) ≠ env.base_netloc) →
      ¬ (env.cfg.same_path_prefix_only = true ∧ urlPath (normalize_url u) ≠ "" ∧
        ¬ strStartsWith (urlPath (normalize_url u)) env.base_pref = true ∧
        urlPath (normalize_url u) ≠ env.base_path) →
      ¬ (env.cfg.respect_robots = true ∧ ¬ env.can_fetch (normalize_url u) = true) →
      env.net (normalize_url u) = e →
      (∀ r, e ≠ FetchOutcome.ok r) →
      crawl_loop env ((u, d) :: rest) st =
        crawl_loop env rest
          { st with
              visited := normalize_url u :: st.visited,
              events := st.events ++
                [.fetch_error (normalize_url u) (errRepr e)] }) ∧
    (∀ (env : CrawlEnv) (u : String) (d : Nat) (rest : List (String × Nat))
        (st : CrawlState) (r : FetchOk),
      env.cfg.max_pages = 1 →
      st.pages_fetched = 0 →
      normalize_url u ∉ st.visited →
      ¬ (env.cfg.same_domain_only = true ∧ netlocOf (normalize_url u) ≠ "" ∧
        netlocOf (normalize_url u) ≠ env.base_netloc) →
      ¬ (env.cfg.same_path_prefix_only = true ∧ urlPath (normalize_url u) ≠ "" ∧
        ¬ strStartsWith (urlPath (normalize_url u)) env.base_pref = true ∧
        urlPath (normalize_url u) ≠ env.base_path) →
      ¬ (env.cfg.respect_robots = true ∧ ¬ env.can_fetch (normalize_url u) = true) →
      env.net (normalize_url u) = .ok r →
      crawl_loop env ((u, d) :: rest) st = crawl_loop env [(u, d)] st ∧
      (crawl_loop env ((u, d) :: rest) st).pages_fetched = 1) := by
  refine ⟨crawl_loop_nil, ?_,
    fun env q st h => (crawl_loop_counter env q st).1 h,
    fun env q st => (crawl_loop_counter env q st).2, ?_, ?_⟩
  · intro env q st h
    exact crawl_loop_stopped env st h q
  · intro env u d rest st e hpf hvis hdom hpath hrob hnet hne
    cases e with
    | ok r => exact absurd rfl (hne r)
    | httpError code =>
      exact crawl_loop_fetch_error env u d rest st code hpf hvis hdom hpath hrob hnet
    | urlError reason =>
      exact crawl_loop_url_error env u d rest st reason hpf hvis hdom hpath hrob hnet
    | exn msg =>
      exact crawl_loop_exn_error env u d rest st msg hpf hvis hdom hpath hrob hnet
  · intro env u d rest st r hmax h0 hvis hdom hpath hrob hnet
    have hpf : st.pages_fetched < env.cfg.max_pages := by
      rw [h0, hmax]
      exact Nat.one_pos
    obtain ⟨push, st2, hpf1, hrun⟩ :=
      crawl_loop_ok_succ env u d st r hpf hvis hdom hpath hrob hnet
    have hstop : ∀ q2, crawl_loop env q2 st2 = st2 :=
      crawl_loop_stopped env st2 (by rw [hpf1, h0, hmax]; omega)
    constructor
    · rw [hrun rest, hrun [], hstop (rest ++ push), hstop ([] ++ push)]
    · rw [hrun rest, hstop (rest ++ push), hpf1, h0]

/-- On the sample environment: from seed `http://h/a`, with a second URL
queued and `max_pages = 1`, the crawl fetches exactly one page; a 404 seed
is journaled as a `fetch_error` and skipped. -/
theorem claim_c5_witness :
    (crawl_loop sampleEnv [("http://h/a", 0), ("http://h/b", 0)] emptyCrawlState =
        crawl_loop sampleEnv [("http://h/a", 0)] emptyCrawlState ∧
      (crawl_loop sampleEnv [("http://h/a", 0), ("http://h/b", 0)]
        emptyCrawlState).pages_fetched = 1) ∧
    crawl_loop sampleEnv [("http://h/err", 0)] emptyCrawlState =
      crawl_loop sampleEnv []
        { emptyCrawlState with
            visited := normalize_url "http://h/err" :: emptyCrawlState.visited,
            events := emptyCrawlState.events ++
              [.fetch_error (normalize_url "http://h/err")
                (errRepr (.httpError 404))] } := by
  constructor
  · exact claim_c5_bfs_fetch_loop.2.2.2.2.2 sampleEnv "http://h/a" 0 [("http://h/b", 0)]
      emptyCrawlState ⟨"http://h/a", "text/html", "", some []⟩
      rfl rfl (by decide) (by decide) (by decide) (by decide) rfl
  · exact claim_c5_bfs_fetch_loop.2.2.2.2.1 sampleEnv "http://h/err" 0 [] emptyCrawlState
      (.httpError 404) (by decide) (by decide) (by decide) (by decide) (by decide) rfl
      (fun r h => nomatch h)

end MinuteExtractor
